import Mathlib

/-!
# Traffic-Control: hourly top-N congestion report (`mpi_traffic_analysis.c`)

A shallow embedding of the C program and a verification of its specification.

Conventions of the embedding.

* A C string is modelled by its content, the list of bytes that precede the terminator
  (bytes are natural numbers).  A `char[k]` field therefore holds a list of fewer than `k`
  non-zero bytes; `wf_string k` states exactly that.
* `int` values are integers.  The two places where the program does `int` arithmetic on values
  read from the input (the running sum of a bucket and the subtraction in `compare_stats`) are
  reduced to 32 bits through `wrap_int`: C leaves signed overflow undefined, the embedding takes
  the two's complement result.  The index arithmetic of `main` stays below the number of records
  and is not reduced.
* `strcmp` is fixed by the C standard only up to the sign of its result; the embedding returns
  `-1`, `0` or `1`.
* `qsort` is a library routine.  The program is embedded as a function of the routine
  (`qsort cmp base`), and the theorems assume of it what the C standard promises
  (`qsort_contract`): when the comparison function is consistent on the array, the result is a
  rearrangement of the array that is ordered by the comparison function.  The order of elements
  that compare equal is left open.  `qsort_ref` is one routine that meets the contract; it is used
  to run the program on concrete inputs.
* The message passing of `main` is embedded by its data flow: worker `dest` receives the slice
  `records[offset .. offset + count)` and the master appends the workers' result arrays in rank
  order.  A call of `MPI_Abort` in any process ends the run without a report.
* Allocation.  A request of positive size is taken to succeed; exhausted memory enters only
  through the outcome parameters of `process_data_mem`.  What a request of size zero returns is
  left to the implementation by the C standard and is a parameter of the embedding (`Libc`):
  `malloc(0)`, and with it `realloc(NULL, 0)`, returns a null or a non-null pointer, and so does
  `realloc(p, 0)` for a non-null `p`.  `glibc` is the GNU C library: `malloc(0)` is non-null and
  `realloc(p, 0)` frees `p` and returns a null pointer.
* `read_data_from_file` is embedded on the sequence of strings that the successive calls of
  `fgets` return; `strtok` and `strtol` are library routines and are embedded by what the C
  standard says of them (`long` has 64 bits).  The failure of `fopen` is not modelled.
-/

namespace TrafficControl

/-! ## Constants and records -/

/-- The macro `TOP_N`. -/
def TOP_N : Nat := 2

/-- Largest value of a 32-bit `int`. -/
def INT_MAX : Int := 2147483647

/-- Smallest value of a 32-bit `int`. -/
def INT_MIN : Int := -2147483648

/-- Reduction of an integer to the 32-bit two's complement range. -/
def wrap_int (x : Int) : Int := (x + 2147483648) % 4294967296 - 2147483648

/-- The struct `TrafficRecord`: `char timestamp[20]; char traffic_light[10]; int count`. -/
structure TrafficRecord where
  timestamp : List Nat
  traffic_light : List Nat
  count : Int
deriving DecidableEq

/-- The struct `HourlyStats`: `char hour[20]; char traffic_light[10]; int count`. -/
structure HourlyStats where
  hour : List Nat
  traffic_light : List Nat
  count : Int
deriving DecidableEq

/-- Bytes of a string literal. -/
def str (s : String) : List Nat := s.toList.map Char.toNat

/-! ## String routines -/

/-- The `n` bytes that `strncpy(dst, src, n)` writes: the first `n` bytes of the source, padded
with zero bytes when the source is shorter. -/
def strncpy (src : List Nat) (n : Nat) : List Nat :=
  src.take n ++ List.replicate (n - src.length) 0

/-- The C string held by a buffer: its bytes up to the first zero byte. -/
def cstr (buf : List Nat) : List Nat := buf.takeWhile (fun c => c != 0)

/-- The idiom `strncpy(dst, src, cap - 1); dst[cap - 1] = 0` on a `char dst[cap]`. -/
def copy_field (cap : Nat) (src : List Nat) : List Nat :=
  cstr (strncpy src (cap - 1) ++ [0])

/-- Sign of `strcmp(a, b)`: bytewise lexicographic comparison. -/
def strcmp : List Nat → List Nat → Int
  | [], [] => 0
  | [], _ :: _ => -1
  | _ :: _, [] => 1
  | a :: as, b :: bs => if a < b then -1 else if b < a then 1 else strcmp as bs

/-- The function `extract_hour`: `strncpy(hour, timestamp, 16); hour[16] = 0; hour[13] = 32`
(32 is the space character), read back as a C string. -/
def extract_hour (timestamp : List Nat) : List Nat :=
  cstr ((strncpy timestamp 16 ++ [0]).set 13 32)

/-! ## Comparison and sorting -/

/-- The function `compare_stats`. -/
def compare_stats (sa sb : HourlyStats) : Int :=
  let hour_cmp := strcmp sa.hour sb.hour
  if hour_cmp ≠ 0 then hour_cmp else wrap_int (sb.count - sa.count)

/-- Consistency that the C standard requires of a comparison function on the array it sorts:
swapping the arguments swaps the sign, and "not after" is transitive. -/
def cmp_consistent (cmp : HourlyStats → HourlyStats → Int) (xs : List HourlyStats) : Prop :=
  (∀ a ∈ xs, ∀ b ∈ xs, (cmp a b < 0 ↔ 0 < cmp b a)) ∧
  (∀ a ∈ xs, ∀ b ∈ xs, ∀ c ∈ xs, cmp a b ≤ 0 → cmp b c ≤ 0 → cmp a c ≤ 0)

/-- What the C standard promises of `qsort`: with a comparison function that is consistent on the
array, the result is a rearrangement of the array in which no element comes after one that
compares greater. -/
def qsort_contract
    (qsort : (HourlyStats → HourlyStats → Int) → List HourlyStats → List HourlyStats) : Prop :=
  ∀ cmp xs, cmp_consistent cmp xs →
    (qsort cmp xs).Perm xs ∧ (qsort cmp xs).Pairwise (fun a b => cmp a b ≤ 0)

/-- Insertion of one element in front of the first element that does not compare smaller. -/
def insert_sorted (cmp : HourlyStats → HourlyStats → Int) (a : HourlyStats) :
    List HourlyStats → List HourlyStats
  | [] => [a]
  | b :: l => if cmp a b ≤ 0 then a :: b :: l else b :: insert_sorted cmp a l

/-- A sorting routine that meets `qsort_contract` (insertion sort). -/
def qsort_ref (cmp : HourlyStats → HourlyStats → Int) (xs : List HourlyStats) :
    List HourlyStats :=
  xs.foldr (insert_sorted cmp) []

/-! ## `process_data` -/

/-- The inner loop of the aggregation (`for j`): add `count` to the first entry that has the given
hour and traffic light; `none` when the loop ends with `found == 0`. -/
def process_data_scan (hour traffic_light : List Nat) (count : Int) :
    List HourlyStats → Option (List HourlyStats)
  | [] => none
  | s :: rest =>
    if strcmp s.hour hour = 0 ∧ strcmp s.traffic_light traffic_light = 0 then
      some ({ s with count := wrap_int (s.count + count) } :: rest)
    else
      (process_data_scan hour traffic_light count rest).map (fun t => s :: t)

/-- One iteration of the aggregation loop (`for i`) on `temp_stats[0 .. stats_count)`. -/
def process_data_step (temp_stats : List HourlyStats) (r : TrafficRecord) : List HourlyStats :=
  let hour := extract_hour r.timestamp
  match process_data_scan hour r.traffic_light r.count temp_stats with
  | some t => t
  | none =>
    temp_stats ++
      [{ hour := copy_field 20 hour,
         traffic_light := copy_field 10 r.traffic_light,
         count := r.count }]

/-- The aggregation loop of `process_data`: the content of `temp_stats[0 .. stats_count)` before
the call of `qsort`. -/
def process_data_aggregate (records : List TrafficRecord) : List HourlyStats :=
  records.foldl process_data_step []

/-- The sweep of `process_data` over the sorted array, from the state
`(current_hour, count_in_hour)`. -/
def process_data_sweep : List Nat → Nat → List HourlyStats → List HourlyStats
  | _, _, [] => []
  | current_hour, count_in_hour, s :: rest =>
    let changed := strcmp current_hour s.hour ≠ 0
    let current_hour := if changed then copy_field 20 s.hour else current_hour
    let count_in_hour := if changed then 0 else count_in_hour
    if count_in_hour < TOP_N then
      s :: process_data_sweep current_hour (count_in_hour + 1) rest
    else
      process_data_sweep current_hour count_in_hour rest

/-- The second half of `process_data`: `qsort`, the early return on `stats_count == 0`, and the
sweep. -/
def process_data_top_n
    (qsort : (HourlyStats → HourlyStats → Int) → List HourlyStats → List HourlyStats)
    (temp_stats : List HourlyStats) : List HourlyStats :=
  let sorted := qsort compare_stats temp_stats
  if temp_stats.length = 0 then [] else process_data_sweep [] 0 sorted

/-- The function `process_data`: the array `*results[0 .. *num_results)`. -/
def process_data
    (qsort : (HourlyStats → HourlyStats → Int) → List HourlyStats → List HourlyStats)
    (records : List TrafficRecord) : List HourlyStats :=
  process_data_top_n qsort (process_data_aggregate records)

/-! ## Allocation -/

/-- What the C library returns for a request of size zero: `malloc_zero` tells whether
`malloc(0)`, and with it `realloc(NULL, 0)`, returns a non-null pointer; `realloc_zero` tells
whether `realloc(p, 0)` returns a non-null pointer for a non-null `p`. -/
structure Libc where
  malloc_zero : Bool
  realloc_zero : Bool
deriving DecidableEq

/-- The GNU C library: `malloc(0)` returns a non-null pointer, `realloc(p, 0)` frees `p` and
returns a null pointer. -/
def glibc : Libc := { malloc_zero := true, realloc_zero := false }

/-- Whether `malloc` returns a non-null pointer for `n` array elements. -/
def malloc_ok (libc : Libc) (n : Nat) : Bool := n != 0 || libc.malloc_zero

/-- Whether `realloc(old, ...)` returns a non-null pointer for `n` array elements, where
`old_non_null` tells whether the pointer `old` is non-null. -/
def realloc_ok (libc : Libc) (old_non_null : Bool) (n : Nat) : Bool :=
  n != 0 || (if old_non_null then libc.realloc_zero else libc.malloc_zero)

/-! ## `process_data` with the outcomes of its allocations -/

/-- The function `process_data` with the outcome of its two calls of `malloc` (`true` when the
call returns a non-null pointer): the pair of `*results` (`none` for a null pointer) and
`*num_results`. -/
def process_data_mem
    (qsort : (HourlyStats → HourlyStats → Int) → List HourlyStats → List HourlyStats)
    (temp_stats_alloc results_alloc : Bool) (records : List TrafficRecord) :
    Option (List HourlyStats) × Nat :=
  if temp_stats_alloc = false then (none, 0)
  else
    let temp_stats := process_data_aggregate records
    let sorted := qsort compare_stats temp_stats
    if results_alloc = false then (none, 0)
    else if temp_stats.length = 0 then (some [], 0)
    else
      let results := process_data_sweep [] 0 sorted
      (some results, results.length)

/-! ## `main` -/

/-- The dispatch loop of the master (`for dest`), with `n` iterations left: the pairs
`(offset, count)` in the order of the workers. -/
def main_dispatch_loop (records_per_slave remainder : Int) :
    Nat → Int → Int → List (Int × Int)
  | 0, _, _ => []
  | n + 1, dest, offset =>
    let count := records_per_slave + (if dest ≤ remainder then 1 else 0)
    (offset, count) :: main_dispatch_loop records_per_slave remainder n (dest + 1) (offset + count)

/-- The partition plan of the master for `size` processes: `dest` runs from `1` to `size - 1`. -/
def main_dispatch (num_records size : Int) : List (Int × Int) :=
  main_dispatch_loop (Int.tdiv num_records (size - 1)) (Int.tmod num_records (size - 1))
    (size - 1).toNat 1 0

/-- The record arrays sent to the workers: `records[offset .. offset + count)`. -/
def main_slices (records : List TrafficRecord) (size : Int) : List (List TrafficRecord) :=
  (main_dispatch records.length size).map
    (fun p => (records.drop p.1.toNat).take p.2.toNat)

/-- The worker branch of `main` on the slice it receives: `none` when it calls `MPI_Abort`
because `malloc` returns a null pointer for its records; else the array `results[0 ..
num_results)` that it sends, after `process_data` with the outcomes of its two allocations. -/
def main_worker (libc : Libc)
    (qsort : (HourlyStats → HourlyStats → Int) → List HourlyStats → List HourlyStats)
    (records : List TrafficRecord) : Option (List HourlyStats) :=
  if malloc_ok libc records.length = false then none
  else
    let out := process_data_mem qsort (malloc_ok libc records.length)
      (malloc_ok libc (process_data_aggregate records).length) records
    some ((out.1.getD []).take out.2)

/-- All workers on their slices, in rank order: `none` when one of them aborts the run. -/
def main_workers (libc : Libc)
    (qsort : (HourlyStats → HourlyStats → Int) → List HourlyStats → List HourlyStats) :
    List (List TrafficRecord) → Option (List (List HourlyStats))
  | [] => some []
  | slice :: rest =>
    match main_worker libc qsort slice, main_workers libc qsort rest with
    | some results, some others => some (results :: others)
    | _, _ => none

/-- The receive loop of the master (`for src`), from the pointer `all_results` (`none` for a null
pointer, else the content `all_results[0 .. total_results)`) and on the arrays that the workers
send, in rank order.  `none` when the loop calls `MPI_Abort`, because `malloc` returns a null
pointer for `slave_data` or `realloc` returns one for `all_results`; else the content of
`all_results` after the loop. -/
def main_collect (libc : Libc) :
    Option (List HourlyStats) → List (List HourlyStats) → Option (List HourlyStats)
  | all_results, [] => some (all_results.getD [])
  | all_results, slave_data :: rest =>
    if malloc_ok libc slave_data.length = false then none
    else if realloc_ok libc all_results.isSome
        ((all_results.getD []).length + slave_data.length) = false then none
    else main_collect libc (some (all_results.getD [] ++ slave_data)) rest

/-- The sweep of `main` over the sorted `all_results`. -/
def main_sweep : List Nat → Nat → List HourlyStats → List HourlyStats
  | _, _, [] => []
  | current_hour, count_in_hour, s :: rest =>
    let changed := strcmp current_hour s.hour ≠ 0
    let current_hour := if changed then copy_field 20 s.hour else current_hour
    let count_in_hour := if changed then 0 else count_in_hour
    if count_in_hour < TOP_N then
      s :: main_sweep current_hour (count_in_hour + 1) rest
    else
      main_sweep current_hour count_in_hour rest

/-- The global reduction of the master: `final_results[0 .. num_final_results)` from
`all_results`. -/
def main_reduce
    (qsort : (HourlyStats → HourlyStats → Int) → List HourlyStats → List HourlyStats)
    (all_results : List HourlyStats) : List HourlyStats :=
  if all_results.length > 0 then main_sweep [] 0 (qsort compare_stats all_results) else []

/-- The global reduction applied to the workers' result arrays taken in rank order: when the
receive loop completes, `all_results` is the concatenation of the arrays, so this is the report
of the coordinator on every run that reaches the reduction. -/
def main_merge
    (qsort : (HourlyStats → HourlyStats → Int) → List HourlyStats → List HourlyStats)
    (worker_results : List (List HourlyStats)) : List HourlyStats :=
  main_reduce qsort worker_results.flatten

/-- The report of `main` on the parsed records with `size` processes: `none` when the program
ends without a report, because it refuses to run (`size < 2`) or because a worker or the master
calls `MPI_Abort`. -/
def main (libc : Libc)
    (qsort : (HourlyStats → HourlyStats → Int) → List HourlyStats → List HourlyStats)
    (size : Int) (records : List TrafficRecord) : Option (List HourlyStats) :=
  if size < 2 then none
  else
    match main_workers libc qsort (main_slices records size) with
    | none => none
    | some worker_results =>
      match main_collect libc none worker_results with
      | none => none
      | some all_results => some (main_reduce qsort all_results)

/-! ## Vocabulary of the specification -/

/-- A proper content of a `char[cap]` field: shorter than `cap`, no zero byte. -/
abbrev wf_string (cap : Nat) (s : List Nat) : Prop := s.length < cap ∧ 0 ∉ s

/-- A proper `TrafficRecord` value. -/
abbrev wf_record (r : TrafficRecord) : Prop :=
  wf_string 20 r.timestamp ∧ wf_string 10 r.traffic_light ∧
    INT_MIN ≤ r.count ∧ r.count ≤ INT_MAX

/-- A proper `HourlyStats` value with a non-negative count. -/
abbrev wf_stats (a : HourlyStats) : Prop :=
  wf_string 20 a.hour ∧ wf_string 10 a.traffic_light ∧ 0 ≤ a.count ∧ a.count ≤ INT_MAX

/-- The records of the bucket `(hour, light)`. -/
def bucket (records : List TrafficRecord) (hour light : List Nat) : List TrafficRecord :=
  records.filter (fun r => extract_hour r.timestamp = hour ∧ r.traffic_light = light)

/-- Sum of `count` over the records of a bucket. -/
def bucket_sum (records : List TrafficRecord) (hour light : List Nat) : Int :=
  ((bucket records hour light).map (fun r => r.count)).sum

/-- The aggregates that carry the pair `(hour, light)`. -/
def stats_of (stats : List HourlyStats) (hour light : List Nat) : List HourlyStats :=
  stats.filter (fun a => a.hour = hour ∧ a.traffic_light = light)

/-- Sum of `count` over the aggregates that carry a pair. -/
def stats_sum (stats : List HourlyStats) (hour light : List Nat) : Int :=
  ((stats_of stats hour light).map (fun a => a.count)).sum

/-- The pair (hour, total_count) of an aggregate. -/
def hour_count (a : HourlyStats) : List Nat × Int := (a.hour, a.count)

/-- The entries of a list for one hour key. -/
def of_hour (h : List Nat) (stats : List HourlyStats) : List HourlyStats :=
  stats.filter (fun a => a.hour = h)


/-- The counts of the entries of a list for one hour key. -/
def counts_of_hour (h : List Nat) (stats : List HourlyStats) : List Int :=
  (of_hour h stats).map (fun a => a.count)

/-- The `TOP_N` largest numbers of a list, largest first. -/
def top_counts (cs : List Int) : List Int :=
  (cs.insertionSort (fun x y => y ≤ x)).take TOP_N

/-- The order of the report on pairs (hour, total_count): earlier hour first, and within an hour
the larger count first. -/
def report_le (p q : List Nat × Int) : Prop :=
  strcmp p.1 q.1 < 0 ∨ (p.1 = q.1 ∧ q.2 ≤ p.2)

/-- Records on which the `int` arithmetic of the program stays in range: proper field contents,
non-negative counts, and no bucket whose sum exceeds `INT_MAX`. -/
abbrev in_range (records : List TrafficRecord) : Prop :=
  (∀ r ∈ records, wf_record r ∧ 0 ≤ r.count) ∧
  (∀ r ∈ records, bucket_sum records (extract_hour r.timestamp) r.traffic_light ≤ INT_MAX)

/-- No bucket (hour key, traffic light) has records in two different slices. -/
abbrev split_free (slices : List (List TrafficRecord)) : Prop :=
  slices.Pairwise (fun s t => ∀ r ∈ s, ∀ r' ∈ t,
    ¬(extract_hour r.timestamp = extract_hour r'.timestamp ∧
      r.traffic_light = r'.traffic_light))

/-- No two different aggregates of the same hour have the same count. -/
abbrev tie_free (stats : List HourlyStats) : Prop :=
  ∀ a ∈ stats, ∀ b ∈ stats, a.hour = b.hour → a.count = b.count → a = b

/-! ## Sample inputs -/

/-- The four records of the worked example of the specification. -/
def spec_example : List TrafficRecord :=
  [{ timestamp := str "2024-01-01 08:05", traffic_light := str "L1", count := 10 },
   { timestamp := str "2024-01-01 08:20", traffic_light := str "L1", count := 5 },
   { timestamp := str "2024-01-01 08:10", traffic_light := str "L2", count := 20 },
   { timestamp := str "2024-01-01 09:00", traffic_light := str "L1", count := 7 }]

/-- Two records of one traffic light with the same timestamp. -/
def split_example : List TrafficRecord :=
  [{ timestamp := str "2024-01-01 08:05", traffic_light := str "L1", count := 10 },
   { timestamp := str "2024-01-01 08:05", traffic_light := str "L1", count := 5 }]

/-- An aggregate of the traffic light `light` with count 5 in one fixed hour. -/
def tied (light : String) : HourlyStats :=
  { hour := str "2024-01-01 08 05", traffic_light := str light, count := 5 }

/-- An aggregate of the traffic light `light` with the given count in the same hour. -/
def busy (light : String) (count : Int) : HourlyStats :=
  { hour := str "2024-01-01 08 05", traffic_light := str light, count := count }

/-- The order of the entries of a report: an earlier entry has a strictly smaller hour key, or
the same hour key and a count that is not smaller. -/
abbrev report_order (a b : HourlyStats) : Prop :=
  strcmp a.hour b.hour < 0 ∨ (a.hour = b.hour ∧ b.count ≤ a.count)

/-- Every hour key occupies one contiguous block of the list: between two entries of one hour
there are only entries of that hour. -/
abbrev hour_blocks (l : List HourlyStats) : Prop :=
  ∀ pre a mid b post, l = pre ++ a :: (mid ++ b :: post) → a.hour = b.hour →
    ∀ c ∈ mid, c.hour = a.hour

/-! ## `read_data_from_file` -/

/-- The macro `MAX_LINE_LENGTH`. -/
def MAX_LINE_LENGTH : Nat := 100

/-- The macro `MAX_TRAFFIC_LIGHTS`. -/
def MAX_TRAFFIC_LIGHTS : Nat := 1000

/-- Largest value of a 64-bit `long`. -/
def LONG_MAX : Int := 9223372036854775807

/-- Smallest value of a 64-bit `long`. -/
def LONG_MIN : Int := -9223372036854775808

/-- The library predicate `isspace` in the C locale: space, tab, line feed, vertical tab, form
feed, carriage return. -/
def is_space (c : Nat) : Bool := c = 32 || (9 ≤ c && c ≤ 13)

/-- The library predicate `isdigit`. -/
def is_digit (c : Nat) : Bool := 48 ≤ c && c ≤ 57

/-- The tokens that `strtok(line, " ")` and the following calls `strtok(NULL, " ")` return: the
maximal runs of bytes other than the space, in order (`token` is the run being read). -/
def strtok_tokens : List Nat → List Nat → List (List Nat)
  | [], token => if token = [] then [] else [token]
  | c :: s, token =>
    if c = 32 then (if token = [] then strtok_tokens s [] else token :: strtok_tokens s [])
    else strtok_tokens s (token ++ [c])

/-- The part of a string that `strtol` reads as digits: after leading white space and an
optional sign, the longest run of decimal digits. -/
def strtol_numeral (s : List Nat) : List Nat :=
  match s.dropWhile is_space with
  | 45 :: r => r.takeWhile is_digit
  | 43 :: r => r.takeWhile is_digit
  | r => r.takeWhile is_digit

/-- Whether `strtol` reads a minus sign. -/
def strtol_negative (s : List Nat) : Bool :=
  match s.dropWhile is_space with
  | 45 :: _ => true
  | _ => false

/-- The number written by a run of decimal digits. -/
def digits_value (ds : List Nat) : Nat := ds.foldl (fun v c => 10 * v + (c - 48)) 0

/-- The call `strtol(s, &endptr, 10)`: `none` when nothing is converted (`endptr == s`), else
the value, kept between `LONG_MIN` and `LONG_MAX`. -/
def strtol (s : List Nat) : Option Int :=
  if strtol_numeral s = [] then none
  else if strtol_negative s then some (max LONG_MIN (-(digits_value (strtol_numeral s) : Int)))
  else some (min LONG_MAX (digits_value (strtol_numeral s) : Int))

/-- The call `snprintf(timestamp, 20, "%s %s", date, time)`: at most 19 bytes are kept. -/
def snprintf_timestamp (date time : List Nat) : List Nat :=
  (date ++ 32 :: time).take 19

/-- The loop `while (token != NULL && i < 4)` of `read_data_from_file`, where `i` is the number
of parts stored so far. -/
def read_data_split : List (List Nat) → List (List Nat) → List (List Nat)
  | [], parts => parts
  | token :: rest, parts =>
    if parts.length < 4 then read_data_split rest (parts ++ [token]) else parts

/-- One iteration of the reading loop of `read_data_from_file` on the string `line` returned by
`fgets`: the records `(*records)[0 .. count)` after the iteration. -/
def read_data_line (records : List TrafficRecord) (line : List Nat) : List TrafficRecord :=
  if line.head? = some 10 ∨ line.head? = some 35 then records
  else
    match read_data_split (strtok_tokens (line.takeWhile (fun c => c != 10)) []) [] with
    | [date, time, light, number] =>
      match strtol number with
      | none => records
      | some value =>
        records ++
          [{ timestamp := snprintf_timestamp date time,
             traffic_light := copy_field 10 light,
             count := wrap_int value }]
    | _ => records

/-- The reading loop of `read_data_from_file` on the strings that `fgets` returns. -/
def read_data_loop : List TrafficRecord → List (List Nat) → List TrafficRecord
  | records, [] => records
  | records, line :: rest =>
    if records.length < MAX_TRAFFIC_LIGHTS then read_data_loop (read_data_line records line) rest
    else records

/-- The function `read_data_from_file` after a successful `fopen` and `malloc`: the records
`(*records)[0 .. count)`; the return value is their number. -/
def read_data_from_file (lines : List (List Nat)) : List TrafficRecord :=
  read_data_loop [] lines

/-- The fields of a line as the reading loop sees them: the space-separated tokens of the line
up to its line feed. -/
def fields (line : List Nat) : List (List Nat) :=
  strtok_tokens (line.takeWhile (fun c => c != 10)) []

/-! ## Timestamps -/

/-- A calendar time with minute precision. -/
structure CalendarTime where
  year : Nat
  month : Nat
  day : Nat
  hour : Nat
  minute : Nat
deriving DecidableEq

/-- Two decimal digits, zero-padded. -/
def two_digits (n : Nat) : List Nat := [48 + n / 10 % 10, 48 + n % 10]

/-- Four decimal digits, zero-padded. -/
def four_digits (n : Nat) : List Nat :=
  [48 + n / 1000 % 10, 48 + n / 100 % 10, 48 + n / 10 % 10, 48 + n % 10]

/-- The zero-padded text `YYYY-MM-DD HH:MM` of a calendar time. -/
def timestamp_text (t : CalendarTime) : List Nat :=
  four_digits t.year ++ 45 :: (two_digits t.month ++ 45 :: (two_digits t.day ++
    32 :: (two_digits t.hour ++ 58 :: two_digits t.minute)))

/-- The fields of a calendar time fit their zero-padded widths. -/
abbrev fits_text (t : CalendarTime) : Prop :=
  t.year < 10000 ∧ t.month < 100 ∧ t.day < 100 ∧ t.hour < 100 ∧ t.minute < 100

/-- The calendar hour of the first time is strictly earlier than the calendar hour of the
second. -/
abbrev earlier_hour (s t : CalendarTime) : Prop :=
  s.year < t.year ∨ (s.year = t.year ∧ (s.month < t.month ∨ (s.month = t.month ∧
    (s.day < t.day ∨ (s.day = t.day ∧ s.hour < t.hour)))))

/-! ## Strings -/

theorem strcmp_cases (a b : List Nat) : strcmp a b = -1 ∨ strcmp a b = 0 ∨ strcmp a b = 1 := by
  induction a generalizing b with
  | nil => cases b <;> simp [strcmp]
  | cons x xs ih =>
    cases b with
    | nil => simp [strcmp]
    | cons y ys =>
      simp only [strcmp]
      split_ifs
      · simp
      · simp
      · exact ih ys

theorem strcmp_eq_zero (a b : List Nat) : strcmp a b = 0 ↔ a = b := by
  induction a generalizing b with
  | nil => cases b <;> simp [strcmp]
  | cons x xs ih =>
    cases b with
    | nil => simp [strcmp]
    | cons y ys =>
      simp only [strcmp]
      split_ifs with h1 h2
      · simp; intro h; omega
      · simp; intro h; omega
      · rw [ih ys]
        have : x = y := by omega
        simp [this]

theorem strcmp_self (a : List Nat) : strcmp a a = 0 := (strcmp_eq_zero a a).2 rfl

theorem strcmp_swap (a b : List Nat) : strcmp b a = - strcmp a b := by
  induction a generalizing b with
  | nil => cases b <;> simp [strcmp]
  | cons x xs ih =>
    cases b with
    | nil => simp [strcmp]
    | cons y ys =>
      simp only [strcmp]
      split_ifs <;> first | omega | exact ih ys

theorem strcmp_lt_trans (a b c : List Nat) (h1 : strcmp a b < 0) (h2 : strcmp b c < 0) :
    strcmp a c < 0 := by
  induction a generalizing b c with
  | nil =>
    cases c with
    | nil => cases b <;> simp [strcmp] at h1 h2
    | cons z zs => simp [strcmp]
  | cons x xs ih =>
    cases b with
    | nil => simp [strcmp] at h1
    | cons y ys =>
      cases c with
      | nil => simp [strcmp] at h2
      | cons z zs =>
        simp only [strcmp] at h1 h2 ⊢
        split_ifs at h1 h2 ⊢ <;> first | omega | exact ih ys zs h1 h2

theorem strcmp_le_trans (a b c : List Nat) (h1 : strcmp a b ≤ 0) (h2 : strcmp b c ≤ 0) :
    strcmp a c ≤ 0 := by
  rcases lt_or_eq_of_le h1 with h1 | h1
  · rcases lt_or_eq_of_le h2 with h2 | h2
    · exact le_of_lt (strcmp_lt_trans a b c h1 h2)
    · rw [strcmp_eq_zero] at h2; subst h2; exact le_of_lt h1
  · rw [strcmp_eq_zero] at h1; subst h1; exact h2

theorem strcmp_nil_le (b : List Nat) : strcmp [] b ≤ 0 := by
  cases b <;> simp [strcmp]

theorem zero_not_mem_cstr (buf : List Nat) : 0 ∉ cstr buf := by
  intro h
  have := List.mem_takeWhile_imp h
  simp at this

theorem length_cstr_le (buf : List Nat) : (cstr buf).length ≤ buf.length := by
  unfold cstr
  exact (List.takeWhile_sublist _).length_le

theorem cstr_append_zero (s t : List Nat) (h : 0 ∉ s) : cstr (s ++ 0 :: t) = s := by
  induction s with
  | nil => simp [cstr]
  | cons x xs ih =>
    have hx : x ≠ 0 := fun e => h (by simp [e])
    have hxs : 0 ∉ xs := fun e => h (by simp [e])
    have := ih hxs
    simp only [cstr] at this ⊢
    have hb : (x != 0) = true := by simpa using hx
    simp [List.takeWhile_cons, hb, this]

theorem copy_field_of_wf (cap : Nat) (s : List Nat) (h : wf_string cap s) :
    copy_field cap s = s := by
  obtain ⟨hlen, h0⟩ := h
  unfold copy_field strncpy
  rw [List.take_of_length_le (by omega)]
  cases hk : cap - 1 - s.length with
  | zero => simpa using cstr_append_zero s [] h0
  | succ k =>
    rw [List.replicate_succ, List.append_assoc]
    exact cstr_append_zero s _ h0

theorem extract_hour_wf (timestamp : List Nat) : wf_string 20 (extract_hour timestamp) := by
  refine ⟨?_, zero_not_mem_cstr _⟩
  have := length_cstr_le ((strncpy timestamp 16 ++ [0]).set 13 32)
  have h2 : (strncpy timestamp 16).length = 16 := by
    unfold strncpy
    simp
    omega
  unfold extract_hour
  simp [h2] at this ⊢
  omega

theorem copy_field_extract_hour (timestamp : List Nat) :
    copy_field 20 (extract_hour timestamp) = extract_hour timestamp :=
  copy_field_of_wf 20 _ (extract_hour_wf timestamp)

/-! ## The comparison function -/

theorem wrap_int_of_range (x : Int) (h1 : INT_MIN ≤ x) (h2 : x ≤ INT_MAX) : wrap_int x = x := by
  unfold INT_MIN at h1
  unfold INT_MAX at h2
  unfold wrap_int
  omega

theorem wrap_int_add_wrap (x y : Int) : wrap_int (wrap_int x + y) = wrap_int (x + y) := by
  unfold wrap_int
  omega

theorem compare_stats_eq (a b : HourlyStats)
    (ha : 0 ≤ a.count ∧ a.count ≤ INT_MAX) (hb : 0 ≤ b.count ∧ b.count ≤ INT_MAX) :
    compare_stats a b =
      if strcmp a.hour b.hour ≠ 0 then strcmp a.hour b.hour else b.count - a.count := by
  unfold compare_stats
  have : wrap_int (b.count - a.count) = b.count - a.count := by
    apply wrap_int_of_range <;> (simp only [INT_MIN, INT_MAX] at *; omega)
  simp only [this]

theorem compare_stats_le_iff (a b : HourlyStats)
    (ha : 0 ≤ a.count ∧ a.count ≤ INT_MAX) (hb : 0 ≤ b.count ∧ b.count ≤ INT_MAX) :
    compare_stats a b ≤ 0 ↔
      strcmp a.hour b.hour < 0 ∨ (a.hour = b.hour ∧ b.count ≤ a.count) := by
  rw [compare_stats_eq a b ha hb]
  have hz := strcmp_eq_zero a.hour b.hour
  split_ifs with h
  · constructor
    · intro h'; left; omega
    · rintro (h' | ⟨h', _⟩)
      · omega
      · exact absurd (hz.2 h') h
  · have h0 : strcmp a.hour b.hour = 0 := by simpa using h
    constructor
    · intro h'; right; exact ⟨hz.1 h0, by omega⟩
    · rintro (h' | ⟨_, h'⟩) <;> omega

theorem compare_stats_lt_iff (a b : HourlyStats)
    (ha : 0 ≤ a.count ∧ a.count ≤ INT_MAX) (hb : 0 ≤ b.count ∧ b.count ≤ INT_MAX) :
    compare_stats a b < 0 ↔
      strcmp a.hour b.hour < 0 ∨ (a.hour = b.hour ∧ b.count < a.count) := by
  rw [compare_stats_eq a b ha hb]
  have hz := strcmp_eq_zero a.hour b.hour
  split_ifs with h
  · constructor
    · intro h'; left; omega
    · rintro (h' | ⟨h', _⟩)
      · omega
      · exact absurd (hz.2 h') h
  · have h0 : strcmp a.hour b.hour = 0 := by simpa using h
    constructor
    · intro h'; right; exact ⟨hz.1 h0, by omega⟩
    · rintro (h' | ⟨_, h'⟩) <;> omega

theorem compare_stats_pos_iff (a b : HourlyStats)
    (ha : 0 ≤ a.count ∧ a.count ≤ INT_MAX) (hb : 0 ≤ b.count ∧ b.count ≤ INT_MAX) :
    0 < compare_stats a b ↔
      0 < strcmp a.hour b.hour ∨ (a.hour = b.hour ∧ a.count < b.count) := by
  rw [compare_stats_eq a b ha hb]
  have hz := strcmp_eq_zero a.hour b.hour
  split_ifs with h
  · constructor
    · intro h'; left; omega
    · rintro (h' | ⟨h', _⟩)
      · omega
      · exact absurd (hz.2 h') h
  · have h0 : strcmp a.hour b.hour = 0 := by simpa using h
    constructor
    · intro h'; right; exact ⟨hz.1 h0, by omega⟩
    · rintro (h' | ⟨_, h'⟩) <;> omega

/-- On aggregates with counts between `0` and `INT_MAX` the function `compare_stats` is
consistent. -/
theorem compare_stats_consistent (xs : List HourlyStats)
    (h : ∀ a ∈ xs, 0 ≤ a.count ∧ a.count ≤ INT_MAX) : cmp_consistent compare_stats xs := by
  constructor
  · intro a ha b hb
    rw [compare_stats_lt_iff a b (h a ha) (h b hb), compare_stats_pos_iff b a (h b hb) (h a ha)]
    have hs := strcmp_swap a.hour b.hour
    constructor
    · rintro (h' | ⟨h', h3⟩)
      · left; omega
      · right; exact ⟨h'.symm, h3⟩
    · rintro (h' | ⟨h', h3⟩)
      · left; omega
      · right; exact ⟨h'.symm, h3⟩
  · intro a ha b hb c hc
    rw [compare_stats_le_iff a b (h a ha) (h b hb), compare_stats_le_iff b c (h b hb) (h c hc),
      compare_stats_le_iff a c (h a ha) (h c hc)]
    rintro (h1 | ⟨h1, h1'⟩) (h2 | ⟨h2, h2'⟩)
    · left; exact strcmp_lt_trans _ _ _ h1 h2
    · left; rw [← h2]; exact h1
    · left; rw [h1]; exact h2
    · right; exact ⟨h1.trans h2, by omega⟩

/-! ## The reference sorting routine -/

theorem cmp_consistent_mono (cmp : HourlyStats → HourlyStats → Int) (xs ys : List HourlyStats)
    (hm : ∀ x ∈ ys, x ∈ xs) (hc : cmp_consistent cmp xs) : cmp_consistent cmp ys :=
  ⟨fun x hx y hy => hc.1 x (hm x hx) y (hm y hy),
    fun x hx y hy z hz => hc.2 x (hm x hx) y (hm y hy) z (hm z hz)⟩

theorem insert_sorted_perm (cmp : HourlyStats → HourlyStats → Int) (a : HourlyStats)
    (l : List HourlyStats) : (insert_sorted cmp a l).Perm (a :: l) := by
  induction l with
  | nil => simp [insert_sorted]
  | cons b l ih =>
    simp only [insert_sorted]
    split_ifs
    · exact List.Perm.refl _
    · exact (List.Perm.cons b ih).trans (List.Perm.swap a b l)

theorem qsort_ref_perm (cmp : HourlyStats → HourlyStats → Int) (xs : List HourlyStats) :
    (qsort_ref cmp xs).Perm xs := by
  induction xs with
  | nil => simp [qsort_ref]
  | cons a l ih =>
    have : qsort_ref cmp (a :: l) = insert_sorted cmp a (qsort_ref cmp l) := rfl
    rw [this]
    exact (insert_sorted_perm cmp a _).trans (List.Perm.cons a ih)

theorem insert_sorted_pairwise (cmp : HourlyStats → HourlyStats → Int) (a : HourlyStats)
    (l : List HourlyStats) (hc : cmp_consistent cmp (a :: l))
    (hl : l.Pairwise (fun x y => cmp x y ≤ 0)) :
    (insert_sorted cmp a l).Pairwise (fun x y => cmp x y ≤ 0) := by
  induction l with
  | nil => simp [insert_sorted]
  | cons b l ih =>
    have hb := List.pairwise_cons.1 hl
    simp only [insert_sorted]
    split_ifs with hab
    · refine List.pairwise_cons.2 ⟨?_, hl⟩
      intro y hy
      rcases List.mem_cons.1 hy with rfl | hy
      · exact hab
      · exact hc.2 a (by simp) b (by simp) y (by simp [hy]) hab (hb.1 y hy)
    · have hc' : cmp_consistent cmp (a :: l) := by
        refine cmp_consistent_mono cmp _ _ ?_ hc
        intro x hx
        rcases List.mem_cons.1 hx with h | h <;> simp [h]
      refine List.pairwise_cons.2 ⟨?_, ih hc' hb.2⟩
      intro y hy
      rcases List.mem_cons.1 ((insert_sorted_perm cmp a l).mem_iff.1 hy) with rfl | hy
      · have h1 := hc.1 y (by simp) b (by simp)
        have h2 := hc.1 b (by simp) y (by simp)
        by_contra hcon
        have : 0 < cmp b y := by omega
        have := h1.2 this
        omega
      · exact hb.1 y hy

/-- The reference routine meets the contract of `qsort`. -/
theorem qsort_ref_contract : qsort_contract qsort_ref := by
  intro cmp xs hc
  refine ⟨qsort_ref_perm cmp xs, ?_⟩
  induction xs with
  | nil => simp [qsort_ref]
  | cons a l ih =>
    have hc' : cmp_consistent cmp l :=
      cmp_consistent_mono cmp _ _ (fun x hx => List.mem_cons_of_mem _ hx) hc
    have hc2 : cmp_consistent cmp (a :: qsort_ref cmp l) := by
      refine cmp_consistent_mono cmp _ _ ?_ hc
      intro x hx
      rcases List.mem_cons.1 hx with h | h
      · simp [h]
      · exact List.mem_cons_of_mem _ ((qsort_ref_perm cmp l).mem_iff.1 h)
    have : qsort_ref cmp (a :: l) = insert_sorted cmp a (qsort_ref cmp l) := rfl
    rw [this]
    exact insert_sorted_pairwise cmp a _ hc2 (ih hc')

/-! ## The partition plan -/

theorem dispatch_loop_length (rps rem : Int) (n : Nat) (dest offset : Int) :
    (main_dispatch_loop rps rem n dest offset).length = n := by
  induction n generalizing dest offset with
  | zero => rfl
  | succ n ih => simp [main_dispatch_loop, ih]

theorem dispatch_loop_head (rps rem : Int) (n : Nat) (dest offset : Int) :
    ∀ p ∈ (main_dispatch_loop rps rem n dest offset).head?, p.1 = offset := by
  cases n with
  | zero => simp [main_dispatch_loop]
  | succ n => simp [main_dispatch_loop]

theorem dispatch_loop_chain (rps rem : Int) (n : Nat) (dest offset : Int) :
    List.Chain' (fun p q : Int × Int => q.1 = p.1 + p.2)
      (main_dispatch_loop rps rem n dest offset) := by
  induction n generalizing dest offset with
  | zero => simp [main_dispatch_loop]
  | succ n ih =>
    simp only [main_dispatch_loop]
    rw [List.chain'_cons']
    refine ⟨?_, ih _ _⟩
    intro q hq
    exact dispatch_loop_head rps rem n _ _ q hq

theorem dispatch_loop_count_nonneg (rps rem : Int) (hr : 0 ≤ rps) (n : Nat) (dest offset : Int) :
    ∀ p ∈ main_dispatch_loop rps rem n dest offset, 0 ≤ p.2 := by
  induction n generalizing dest offset with
  | zero => simp [main_dispatch_loop]
  | succ n ih =>
    intro p hp
    simp only [main_dispatch_loop, List.mem_cons] at hp
    rcases hp with rfl | hp
    · simp only
      split_ifs <;> omega
    · exact ih _ _ p hp

theorem dispatch_loop_offset_le (rps rem : Int) (hr : 0 ≤ rps) (n : Nat) (dest offset : Int) :
    ∀ p ∈ main_dispatch_loop rps rem n dest offset, offset ≤ p.1 := by
  induction n generalizing dest offset with
  | zero => simp [main_dispatch_loop]
  | succ n ih =>
    intro p hp
    simp only [main_dispatch_loop, List.mem_cons] at hp
    rcases hp with rfl | hp
    · simp
    · have := ih _ _ p hp
      split_ifs at this <;> omega

theorem dispatch_loop_sum (rps rem : Int) (n : Nat) (dest offset : Int) :
    ((main_dispatch_loop rps rem n dest offset).map (fun p : Int × Int => p.2)).sum =
      n * rps + max 0 (min (n : Int) (rem - dest + 1)) := by
  induction n generalizing dest offset with
  | zero => simp [main_dispatch_loop]
  | succ n ih =>
    simp only [main_dispatch_loop, List.map_cons, List.sum_cons, ih]
    push_cast
    have e : ((n : Int) + 1) * rps = n * rps + rps := by ring
    rw [e]
    split_ifs with h
    · have : max 0 (min ((n : Int) + 1) (rem - dest + 1)) =
          1 + max 0 (min (n : Int) (rem - (dest + 1) + 1)) := by
        rcases le_total (n : Int) (rem - (dest + 1) + 1) with h1 | h1
        · rw [min_eq_left h1, min_eq_left (by omega), max_eq_right (by omega),
            max_eq_right (by omega)]
          omega
        · rw [min_eq_right h1, min_eq_right (by omega), max_eq_right (by omega),
            max_eq_right (by omega)]
          omega
      omega
    · have h1 : max 0 (min ((n : Int) + 1) (rem - dest + 1)) = 0 :=
        max_eq_left ((min_le_right _ _).trans (by omega))
      have h2 : max 0 (min (n : Int) (rem - (dest + 1) + 1)) = 0 :=
        max_eq_left ((min_le_right _ _).trans (by omega))
      omega

/-- An index before `offset` lies in no slice of the plan, and an index between `offset` and
the last index of the plan lies in exactly one slice. -/
theorem dispatch_loop_cover (rps rem : Int) (hr : 0 ≤ rps) (n : Nat) (dest offset : Int) (i : Int) :
    (i < offset →
      ((main_dispatch_loop rps rem n dest offset).filter
        (fun p => decide (p.1 ≤ i ∧ i < p.1 + p.2))).length = 0) ∧
    (offset ≤ i →
      i < offset + ((main_dispatch_loop rps rem n dest offset).map (fun p : Int × Int => p.2)).sum →
      ((main_dispatch_loop rps rem n dest offset).filter
        (fun p => decide (p.1 ≤ i ∧ i < p.1 + p.2))).length = 1) := by
  induction n generalizing dest offset with
  | zero =>
    constructor
    · intro _; simp [main_dispatch_loop]
    · intro h1 h2; simp [main_dispatch_loop] at h2; omega
  | succ n ih =>
    have hc : 0 ≤ rps + (if dest ≤ rem then 1 else 0) := by split_ifs <;> omega
    obtain ⟨ih1, ih2⟩ := ih (dest + 1) (offset + (rps + if dest ≤ rem then 1 else 0))
    simp only [main_dispatch_loop, List.map_cons, List.sum_cons]
    constructor
    · intro hi
      rw [List.filter_cons_of_neg (by simp; intro h; omega)]
      exact ih1 (by omega)
    · intro h1 h2
      by_cases hin : i < offset + (rps + if dest ≤ rem then 1 else 0)
      · rw [List.filter_cons_of_pos (by simp; exact ⟨h1, hin⟩)]
        simp only [List.length_cons]
        rw [ih1 hin]
      · rw [List.filter_cons_of_neg (by simp; intro _; omega)]
        exact ih2 (by omega) (by omega)

theorem dispatch_loop_flatten (records : List TrafficRecord) (rps rem : Int) (hr : 0 ≤ rps)
    (n : Nat) (dest offset : Int) (ho : 0 ≤ offset) :
    ((main_dispatch_loop rps rem n dest offset).map
        (fun p => (records.drop p.1.toNat).take p.2.toNat)).flatten =
      (records.drop offset.toNat).take
        ((main_dispatch_loop rps rem n dest offset).map (fun p : Int × Int => p.2)).sum.toNat := by
  induction n generalizing dest offset with
  | zero => simp [main_dispatch_loop]
  | succ n ih =>
    have hc : 0 ≤ rps + (if dest ≤ rem then 1 else 0) := by split_ifs <;> omega
    have hs := dispatch_loop_sum rps rem n (dest + 1) (offset + (rps + if dest ≤ rem then 1 else 0))
    have hs0 : 0 ≤ ((main_dispatch_loop rps rem n (dest + 1)
        (offset + (rps + if dest ≤ rem then 1 else 0))).map (fun p : Int × Int => p.2)).sum := by
      rw [hs]
      have := le_max_left (0 : Int) (min (n : Int) (rem - (dest + 1) + 1))
      have : 0 ≤ (n : Int) * rps := mul_nonneg (by omega) hr
      omega
    simp only [main_dispatch_loop, List.map_cons, List.flatten_cons, List.sum_cons]
    rw [ih _ _ (by omega), Int.toNat_add hc hs0, List.take_add, List.drop_drop,
      Int.toNat_add ho hc]

theorem dispatch_facts (num_records size : Int) (hn : 0 ≤ num_records) (hs : 2 ≤ size) :
    0 ≤ Int.tdiv num_records (size - 1) ∧
    ((main_dispatch num_records size).map (fun p : Int × Int => p.2)).sum = num_records := by
  have hw : 0 < size - 1 := by omega
  have h1 : 0 ≤ Int.tdiv num_records (size - 1) := Int.tdiv_nonneg hn (by omega)
  refine ⟨h1, ?_⟩
  unfold main_dispatch
  rw [dispatch_loop_sum]
  have h2 := Int.tmod_nonneg (size - 1) hn
  have h3 := Int.tmod_lt_of_pos num_records hw
  have h4 := Int.tdiv_add_tmod num_records (size - 1)
  have h5 : (((size - 1).toNat : Nat) : Int) = size - 1 := Int.toNat_of_nonneg (by omega)
  rw [h5, min_eq_right (by omega), max_eq_right (by omega)]
  linarith

theorem main_slices_flatten (records : List TrafficRecord) (size : Int) (hs : 2 ≤ size) :
    (main_slices records size).flatten = records := by
  have hf := dispatch_facts records.length size (by omega) hs
  unfold main_slices
  have := dispatch_loop_flatten records _ (Int.tmod (records.length : Int) (size - 1)) hf.1
    (size - 1).toNat 1 0 (le_refl 0)
  unfold main_dispatch at hf ⊢
  rw [this, hf.2]
  simp

/-! ## The aggregation loop -/

theorem scan_none_iff (h l : List Nat) (c : Int) (temp : List HourlyStats) :
    process_data_scan h l c temp = none ↔
      ∀ s ∈ temp, ¬(s.hour = h ∧ s.traffic_light = l) := by
  induction temp with
  | nil => simp [process_data_scan]
  | cons s rest ih =>
    simp only [process_data_scan, strcmp_eq_zero]
    split_ifs with hm
    · simp [hm]
    · simp only [Option.map_eq_none', ih, List.mem_cons, forall_eq_or_imp]
      exact ⟨fun h' => ⟨hm, h'⟩, fun h' => h'.2⟩

theorem scan_some (h l : List Nat) (c : Int) (temp t : List HourlyStats)
    (ht : process_data_scan h l c temp = some t) :
    ∃ pre s post, temp = pre ++ s :: post ∧
      (∀ x ∈ pre, ¬(x.hour = h ∧ x.traffic_light = l)) ∧
      s.hour = h ∧ s.traffic_light = l ∧
      t = pre ++ { s with count := wrap_int (s.count + c) } :: post := by
  induction temp generalizing t with
  | nil => simp [process_data_scan] at ht
  | cons s rest ih =>
    simp only [process_data_scan, strcmp_eq_zero] at ht
    split_ifs at ht with hm
    · refine ⟨[], s, rest, rfl, by simp, hm.1, hm.2, ?_⟩
      simpa using (Option.some.inj ht).symm
    · cases hr : process_data_scan h l c rest with
      | none => simp [hr] at ht
      | some t' =>
        simp only [hr, Option.map_some', Option.some.injEq] at ht
        obtain ⟨pre, s', post, e1, e2, e3, e4, e5⟩ := ih t' hr
        refine ⟨s :: pre, s', post, by simp [e1], ?_, e3, e4, by simp [← ht, e5]⟩
        intro x hx
        rcases List.mem_cons.1 hx with rfl | hx
        · exact hm
        · exact e2 x hx

theorem scan_cons_neg (h l : List Nat) (c : Int) (s : HourlyStats) (rest : List HourlyStats)
    (hs : ¬(s.hour = h ∧ s.traffic_light = l)) :
    process_data_scan h l c (s :: rest) =
      (process_data_scan h l c rest).map (fun t => s :: t) := by
  simp only [process_data_scan, strcmp_eq_zero, if_neg hs]

theorem scan_append_left (h l : List Nat) (c : Int) (T U : List HourlyStats)
    (hT : ∀ x ∈ T, ¬(x.hour = h ∧ x.traffic_light = l)) :
    process_data_scan h l c (T ++ U) = (process_data_scan h l c U).map (fun t => T ++ t) := by
  induction T with
  | nil => simp
  | cons s rest ih =>
    have hs : ¬(s.hour = h ∧ s.traffic_light = l) := hT s (by simp)
    have ih' := ih (fun x hx => hT x (by simp [hx]))
    rw [List.cons_append, scan_cons_neg h l c s _ hs, ih']
    cases process_data_scan h l c U <;> simp

theorem step_of_none (temp : List HourlyStats) (r : TrafficRecord)
    (h : process_data_scan (extract_hour r.timestamp) r.traffic_light r.count temp = none) :
    process_data_step temp r =
      temp ++ [{ hour := copy_field 20 (extract_hour r.timestamp),
                 traffic_light := copy_field 10 r.traffic_light,
                 count := r.count }] := by
  unfold process_data_step
  simp only [h]

theorem step_of_some (temp t : List HourlyStats) (r : TrafficRecord)
    (h : process_data_scan (extract_hour r.timestamp) r.traffic_light r.count temp = some t) :
    process_data_step temp r = t := by
  unfold process_data_step
  simp only [h]

theorem aggregate_snoc (rs : List TrafficRecord) (r : TrafficRecord) :
    process_data_aggregate (rs ++ [r]) = process_data_step (process_data_aggregate rs) r := by
  simp [process_data_aggregate, List.foldl_append]

theorem bucket_snoc (rs : List TrafficRecord) (r : TrafficRecord) (h l : List Nat) :
    bucket (rs ++ [r]) h l =
      bucket rs h l ++ if extract_hour r.timestamp = h ∧ r.traffic_light = l then [r] else [] := by
  unfold bucket
  rw [List.filter_append]
  congr 1
  by_cases hm : extract_hour r.timestamp = h ∧ r.traffic_light = l
  · simp [List.filter_cons, hm]
  · rw [if_neg hm]
    simp only [List.filter_cons, List.filter_nil]
    rw [if_neg]
    simpa using hm

theorem bucket_sum_snoc (rs : List TrafficRecord) (r : TrafficRecord) (h l : List Nat) :
    bucket_sum (rs ++ [r]) h l =
      bucket_sum rs h l +
        if extract_hour r.timestamp = h ∧ r.traffic_light = l then r.count else 0 := by
  unfold bucket_sum
  rw [bucket_snoc]
  split_ifs <;> simp

/-- The state of `temp_stats` after the aggregation loop: one entry per bucket that occurs,
holding the 32-bit sum of the bucket. -/
theorem aggregate_invariant (rs : List TrafficRecord)
    (hwf : ∀ r ∈ rs, wf_string 10 r.traffic_light) :
    ((process_data_aggregate rs).map (fun a => (a.hour, a.traffic_light))).Nodup ∧
    (∀ a ∈ process_data_aggregate rs,
      wf_string 20 a.hour ∧ wf_string 10 a.traffic_light ∧
      bucket rs a.hour a.traffic_light ≠ [] ∧
      (a.count = bucket_sum rs a.hour a.traffic_light ∨
        a.count = wrap_int (bucket_sum rs a.hour a.traffic_light))) ∧
    (∀ r ∈ rs, ∃ a ∈ process_data_aggregate rs,
      a.hour = extract_hour r.timestamp ∧ a.traffic_light = r.traffic_light) := by
  induction rs using List.reverseRecOn with
  | nil => simp [process_data_aggregate]
  | append_singleton rs r ih =>
    obtain ⟨ih1, ih2, ih3⟩ := ih (fun x hx => hwf x (by simp [hx]))
    have hr : wf_string 10 r.traffic_light := hwf r (by simp)
    rw [aggregate_snoc]
    cases hsc : process_data_scan (extract_hour r.timestamp) r.traffic_light r.count
        (process_data_aggregate rs) with
    | none =>
      rw [step_of_none _ _ hsc, copy_field_extract_hour, copy_field_of_wf 10 _ hr]
      rw [scan_none_iff] at hsc
      refine ⟨?_, ?_, ?_⟩
      · rw [List.map_append, List.nodup_append]
        refine ⟨ih1, by simp, ?_⟩
        intro k hk1 hk2
        simp only [List.map_cons, List.map_nil, List.mem_singleton] at hk2
        obtain ⟨a, ha, rfl⟩ := List.mem_map.1 hk1
        simp only [Prod.mk.injEq] at hk2
        exact hsc a ha hk2
      · intro a ha
        rcases List.mem_append.1 ha with ha | ha
        · obtain ⟨w1, w2, w3, w4⟩ := ih2 a ha
          have hne : ¬(extract_hour r.timestamp = a.hour ∧ r.traffic_light = a.traffic_light) :=
            fun e => hsc a ha ⟨e.1.symm, e.2.symm⟩
          refine ⟨w1, w2, ?_, ?_⟩
          · rw [bucket_snoc, if_neg hne]; simpa using w3
          · rw [bucket_sum_snoc, if_neg hne]; simpa using w4
        · simp only [List.mem_singleton] at ha
          subst ha
          refine ⟨extract_hour_wf _, hr, ?_, ?_⟩
          · rw [bucket_snoc]; simp
          · left
            rw [bucket_sum_snoc]
            have : bucket rs (extract_hour r.timestamp) r.traffic_light = [] := by
              unfold bucket
              rw [List.filter_eq_nil_iff]
              intro x hx hm
              obtain ⟨a, ha, e1, e2⟩ := ih3 x hx
              simp only [decide_eq_true_eq] at hm
              exact hsc a ha ⟨e1.trans hm.1, e2.trans hm.2⟩
            simp [bucket_sum, this]
      · intro x hx
        rcases List.mem_append.1 hx with hx | hx
        · obtain ⟨a, ha, e⟩ := ih3 x hx
          exact ⟨a, List.mem_append_left _ ha, e⟩
        · simp only [List.mem_singleton] at hx
          subst hx
          exact ⟨_, List.mem_append_right _ (List.mem_singleton_self _), rfl, rfl⟩
    | some t =>
      obtain ⟨pre, s, post, e1, e2, e3, e4, e5⟩ := scan_some _ _ _ _ _ hsc
      rw [step_of_some _ _ _ hsc]
      have hkeys : t.map (fun a => (a.hour, a.traffic_light)) =
          (process_data_aggregate rs).map (fun a => (a.hour, a.traffic_light)) := by
        rw [e5, e1]; simp
      rw [e1] at ih1 ih2 ih3
      have hpost : ∀ x ∈ post,
          ¬(x.hour = extract_hour r.timestamp ∧ x.traffic_light = r.traffic_light) := by
        intro x hx hm
        rw [List.map_append, List.map_cons, List.nodup_append] at ih1
        have := (List.nodup_cons.1 ih1.2.1).1
        apply this
        rw [List.mem_map]
        exact ⟨x, hx, by rw [hm.1, hm.2, e3, e4]⟩
      have hs := ih2 s (by simp)
      refine ⟨?_, ?_, ?_⟩
      · rw [hkeys, e1]; exact ih1
      · intro a ha
        rw [e5] at ha
        have hold : ∀ x, x ∈ pre ++ s :: post →
            ¬(x.hour = extract_hour r.timestamp ∧ x.traffic_light = r.traffic_light) →
            wf_string 20 x.hour ∧ wf_string 10 x.traffic_light ∧
              bucket (rs ++ [r]) x.hour x.traffic_light ≠ [] ∧
              (x.count = bucket_sum (rs ++ [r]) x.hour x.traffic_light ∨
                x.count = wrap_int (bucket_sum (rs ++ [r]) x.hour x.traffic_light)) := by
          intro x hx hne
          obtain ⟨w1, w2, w3, w4⟩ := ih2 x hx
          have hne' : ¬(extract_hour r.timestamp = x.hour ∧ r.traffic_light = x.traffic_light) :=
            fun e => hne ⟨e.1.symm, e.2.symm⟩
          refine ⟨w1, w2, ?_, ?_⟩
          · rw [bucket_snoc, if_neg hne']; simpa using w3
          · rw [bucket_sum_snoc, if_neg hne']; simpa using w4
        rcases List.mem_append.1 ha with ha | ha
        · exact hold a (by simp [ha]) (e2 a ha)
        · rcases List.mem_cons.1 ha with rfl | ha
          · obtain ⟨w1, w2, _, w4⟩ := hs
            refine ⟨w1, w2, ?_, ?_⟩
            · simp only
              rw [bucket_snoc, if_pos ⟨e3.symm, e4.symm⟩]
              simp
            · right
              simp only
              rw [bucket_sum_snoc, if_pos ⟨e3.symm, e4.symm⟩]
              rcases w4 with w4 | w4
              · rw [w4]
              · rw [w4, wrap_int_add_wrap]
          · exact hold a (by simp [ha]) (hpost a ha)
      · intro x hx
        have hmem : ∀ a ∈ pre ++ s :: post, ∃ b ∈ t, b.hour = a.hour ∧
            b.traffic_light = a.traffic_light := by
          intro a ha
          have : (a.hour, a.traffic_light) ∈ t.map (fun a => (a.hour, a.traffic_light)) := by
            rw [hkeys, e1]
            exact List.mem_map.2 ⟨a, ha, rfl⟩
          obtain ⟨b, hb, e⟩ := List.mem_map.1 this
          simp only [Prod.mk.injEq] at e
          exact ⟨b, hb, e⟩
        rcases List.mem_append.1 hx with hx | hx
        · obtain ⟨a, ha, e⟩ := ih3 x hx
          obtain ⟨b, hb, e'⟩ := hmem a ha
          exact ⟨b, hb, e'.1.trans e.1, e'.2.trans e.2⟩
        · simp only [List.mem_singleton] at hx
          subst hx
          obtain ⟨b, hb, e'⟩ := hmem s (by simp)
          exact ⟨b, hb, e'.1.trans e3, e'.2.trans e4⟩

/-- Every hour key stored in `temp_stats` is a proper content of the field `hour`. -/
theorem aggregate_hour_wf (rs : List TrafficRecord) :
    ∀ a ∈ process_data_aggregate rs, wf_string 20 a.hour := by
  induction rs using List.reverseRecOn with
  | nil => simp [process_data_aggregate]
  | append_singleton rs r ih =>
    rw [aggregate_snoc]
    cases hsc : process_data_scan (extract_hour r.timestamp) r.traffic_light r.count
        (process_data_aggregate rs) with
    | none =>
      rw [step_of_none _ _ hsc, copy_field_extract_hour]
      intro a ha
      rcases List.mem_append.1 ha with ha | ha
      · exact ih a ha
      · simp only [List.mem_singleton] at ha
        subst ha
        exact extract_hour_wf _
    | some t =>
      obtain ⟨pre, s, post, e1, _, _, _, e5⟩ := scan_some _ _ _ _ _ hsc
      rw [step_of_some _ _ _ hsc, e5]
      rw [e1] at ih
      intro a ha
      rcases List.mem_append.1 ha with ha | ha
      · exact ih a (by simp [ha])
      · rcases List.mem_cons.1 ha with rfl | ha
        · exact ih s (by simp)
        · exact ih a (by simp [ha])

/-! ## The sweep -/

theorem main_sweep_eq (cur : List Nat) (cnt : Nat) (l : List HourlyStats) :
    main_sweep cur cnt l = process_data_sweep cur cnt l := by
  induction l generalizing cur cnt with
  | nil => rfl
  | cons s rest ih => simp only [main_sweep, process_data_sweep, ih]

theorem sweep_cons_same (cur : List Nat) (cnt : Nat) (s : HourlyStats) (rest : List HourlyStats)
    (hc : strcmp cur s.hour = 0) :
    process_data_sweep cur cnt (s :: rest) =
      if cnt < TOP_N then s :: process_data_sweep cur (cnt + 1) rest
      else process_data_sweep cur cnt rest := by
  simp [process_data_sweep, hc]

theorem sweep_cons_changed (cur : List Nat) (cnt : Nat) (s : HourlyStats)
    (rest : List HourlyStats) (hc : strcmp cur s.hour ≠ 0) :
    process_data_sweep cur cnt (s :: rest) =
      s :: process_data_sweep (copy_field 20 s.hour) 1 rest := by
  simp [process_data_sweep, hc, TOP_N]

theorem sweep_sublist (cur : List Nat) (cnt : Nat) (l : List HourlyStats) :
    (process_data_sweep cur cnt l).Sublist l := by
  induction l generalizing cur cnt with
  | nil => simp [process_data_sweep]
  | cons s rest ih =>
    by_cases hc : strcmp cur s.hour = 0
    · rw [sweep_cons_same cur cnt s rest hc]
      split_ifs
      · exact (ih _ _).cons₂ s
      · exact (ih _ _).cons s
    · rw [sweep_cons_changed cur cnt s rest hc]
      exact (ih _ _).cons₂ s

theorem of_hour_cons_pos (h : List Nat) (s : HourlyStats) (l : List HourlyStats)
    (hs : s.hour = h) : of_hour h (s :: l) = s :: of_hour h l := by
  simp [of_hour, List.filter_cons, hs]

theorem of_hour_cons_neg (h : List Nat) (s : HourlyStats) (l : List HourlyStats)
    (hs : s.hour ≠ h) : of_hour h (s :: l) = of_hour h l := by
  simp [of_hour, List.filter_cons, hs]

theorem of_hour_eq_nil (h : List Nat) (l : List HourlyStats) (hl : ∀ a ∈ l, a.hour ≠ h) :
    of_hour h l = [] := by
  unfold of_hour
  rw [List.filter_eq_nil_iff]
  intro a ha
  simpa using hl a ha

theorem strcmp_lt_of_le_of_ne (a b : List Nat) (h1 : strcmp a b ≤ 0) (h2 : strcmp a b ≠ 0) :
    strcmp a b < 0 := lt_of_le_of_ne h1 h2

theorem strcmp_lt_of_lt_of_le (a b c : List Nat) (h1 : strcmp a b < 0) (h2 : strcmp b c ≤ 0) :
    strcmp a c < 0 := by
  rcases lt_or_eq_of_le h2 with h2 | h2
  · exact strcmp_lt_trans a b c h1 h2
  · rw [strcmp_eq_zero] at h2; subst h2; exact h1

theorem strcmp_ne_of_lt (a b : List Nat) (h : strcmp a b < 0) : b ≠ a := by
  intro e
  subst e
  rw [strcmp_self] at h
  exact lt_irrefl _ h

/-- On an array ordered by hour, the sweep keeps of every hour the first `TOP_N` entries (the first
`TOP_N - count_in_hour` for the hour held in `current_hour`). -/
theorem sweep_of_hour (cur : List Nat) (cnt : Nat) (l : List HourlyStats)
    (hwf : ∀ a ∈ l, wf_string 20 a.hour)
    (hs : l.Pairwise (fun a b => strcmp a.hour b.hour ≤ 0))
    (hcur : ∀ a ∈ l, strcmp cur a.hour ≤ 0) (h : List Nat) :
    of_hour h (process_data_sweep cur cnt l) =
      (of_hour h l).take (if h = cur then TOP_N - cnt else TOP_N) := by
  induction l generalizing cur cnt with
  | nil => simp [process_data_sweep, of_hour]
  | cons s rest ih =>
    have hs' := List.pairwise_cons.1 hs
    have hwf' : ∀ a ∈ rest, wf_string 20 a.hour := fun a ha => hwf a (by simp [ha])
    by_cases hc : strcmp cur s.hour = 0
    · have hcs : cur = s.hour := (strcmp_eq_zero _ _).1 hc
      have hcur' : ∀ a ∈ rest, strcmp cur a.hour ≤ 0 := fun a ha => hcur a (by simp [ha])
      rw [sweep_cons_same cur cnt s rest hc]
      by_cases hlt : cnt < TOP_N
      · rw [if_pos hlt]
        by_cases hh : h = cur
        · have e : s.hour = h := by rw [hh, hcs]
          rw [of_hour_cons_pos h s _ e, of_hour_cons_pos h s _ e, ih cur (cnt + 1) hwf' hs'.2 hcur',
            if_pos hh, if_pos hh]
          have : TOP_N - cnt = (TOP_N - (cnt + 1)) + 1 := by omega
          rw [this, List.take_succ_cons]
        · have e : s.hour ≠ h := by rw [← hcs]; exact fun e => hh e.symm
          rw [of_hour_cons_neg h s _ e, of_hour_cons_neg h s _ e, ih cur (cnt + 1) hwf' hs'.2 hcur',
            if_neg hh, if_neg hh]
      · rw [if_neg hlt, ih cur cnt hwf' hs'.2 hcur']
        by_cases hh : h = cur
        · have : TOP_N - cnt = 0 := by omega
          rw [if_pos hh, this, List.take_zero, List.take_zero]
        · have e : s.hour ≠ h := by rw [← hcs]; exact fun e => hh e.symm
          rw [if_neg hh, of_hour_cons_neg h s _ e]
    · have hlt : strcmp cur s.hour < 0 := strcmp_lt_of_le_of_ne _ _ (hcur s (by simp)) hc
      rw [sweep_cons_changed cur cnt s rest hc, copy_field_of_wf 20 _ (hwf s (by simp))]
      have hnone : of_hour cur rest = [] := by
        apply of_hour_eq_nil
        intro a ha
        exact strcmp_ne_of_lt _ _ (strcmp_lt_of_lt_of_le _ _ _ hlt (hs'.1 a ha))
      by_cases hh : h = s.hour
      · have hne : h ≠ cur := by
          rw [hh]; exact strcmp_ne_of_lt _ _ hlt
        rw [of_hour_cons_pos h s _ hh.symm, of_hour_cons_pos h s _ hh.symm,
          ih s.hour 1 hwf' hs'.2 hs'.1, if_pos hh, if_neg hne]
        have : TOP_N = (TOP_N - 1) + 1 := by simp [TOP_N]
        conv_rhs => rw [this, List.take_succ_cons]
      · have e : s.hour ≠ h := fun e => hh e.symm
        rw [of_hour_cons_neg h s _ e, of_hour_cons_neg h s _ e, ih s.hour 1 hwf' hs'.2 hs'.1,
          if_neg hh]
        by_cases hh' : h = cur
        · rw [hh', hnone]; simp
        · rw [if_neg hh']

/-- The entries that the sweep skips: of every hour, all but the first `TOP_N`. -/
theorem sweep_skipped (cur : List Nat) (cnt : Nat) (l : List HourlyStats)
    (hwf : ∀ a ∈ l, wf_string 20 a.hour)
    (hs : l.Pairwise (fun a b => strcmp a.hour b.hour ≤ 0))
    (hcur : ∀ a ∈ l, strcmp cur a.hour ≤ 0) :
    ∃ skipped, (process_data_sweep cur cnt l ++ skipped).Perm l ∧
      ∀ h, of_hour h skipped =
        (of_hour h l).drop (if h = cur then TOP_N - cnt else TOP_N) := by
  induction l generalizing cur cnt with
  | nil => exact ⟨[], by simp [process_data_sweep], by simp [of_hour]⟩
  | cons s rest ih =>
    have hs' := List.pairwise_cons.1 hs
    have hwf' : ∀ a ∈ rest, wf_string 20 a.hour := fun a ha => hwf a (by simp [ha])
    by_cases hc : strcmp cur s.hour = 0
    · have hcs : cur = s.hour := (strcmp_eq_zero _ _).1 hc
      have hcur' : ∀ a ∈ rest, strcmp cur a.hour ≤ 0 := fun a ha => hcur a (by simp [ha])
      rw [sweep_cons_same cur cnt s rest hc]
      by_cases hlt : cnt < TOP_N
      · obtain ⟨sk, hp, hd⟩ := ih cur (cnt + 1) hwf' hs'.2 hcur'
        refine ⟨sk, ?_, ?_⟩
        · rw [if_pos hlt]; exact List.Perm.cons s hp
        · intro h
          rw [hd h]
          by_cases hh : h = cur
          · have e : s.hour = h := by rw [hh, hcs]
            have : TOP_N - cnt = (TOP_N - (cnt + 1)) + 1 := by omega
            rw [if_pos hh, if_pos hh, of_hour_cons_pos h s _ e, this, List.drop_succ_cons]
          · have e : s.hour ≠ h := by rw [← hcs]; exact fun e => hh e.symm
            rw [if_neg hh, if_neg hh, of_hour_cons_neg h s _ e]
      · obtain ⟨sk, hp, hd⟩ := ih cur cnt hwf' hs'.2 hcur'
        refine ⟨s :: sk, ?_, ?_⟩
        · rw [if_neg hlt]
          exact List.perm_middle.trans (List.Perm.cons s hp)
        · intro h
          by_cases hh : h = cur
          · have e : s.hour = h := by rw [hh, hcs]
            have : TOP_N - cnt = 0 := by omega
            rw [of_hour_cons_pos h s _ e, hd h, if_pos hh, this, of_hour_cons_pos h s _ e]
            simp
          · have e : s.hour ≠ h := by rw [← hcs]; exact fun e => hh e.symm
            rw [of_hour_cons_neg h s _ e, hd h, if_neg hh, of_hour_cons_neg h s _ e]
    · have hlt : strcmp cur s.hour < 0 := strcmp_lt_of_le_of_ne _ _ (hcur s (by simp)) hc
      rw [sweep_cons_changed cur cnt s rest hc, copy_field_of_wf 20 _ (hwf s (by simp))]
      have hnone : of_hour cur rest = [] := by
        apply of_hour_eq_nil
        intro a ha
        exact strcmp_ne_of_lt _ _ (strcmp_lt_of_lt_of_le _ _ _ hlt (hs'.1 a ha))
      obtain ⟨sk, hp, hd⟩ := ih s.hour 1 hwf' hs'.2 hs'.1
      refine ⟨sk, List.Perm.cons s hp, ?_⟩
      intro h
      rw [hd h]
      by_cases hh : h = s.hour
      · have hne : h ≠ cur := by
          rw [hh]; exact strcmp_ne_of_lt _ _ hlt
        have : TOP_N = (TOP_N - 1) + 1 := by simp [TOP_N]
        rw [if_pos hh, if_neg hne, of_hour_cons_pos h s _ hh.symm]
        conv_rhs => rw [this, List.drop_succ_cons]
      · have e : s.hour ≠ h := fun e => hh e.symm
        rw [if_neg hh, of_hour_cons_neg h s _ e]
        by_cases hh' : h = cur
        · rw [hh', hnone]; simp
        · rw [if_neg hh']

/-! ## The largest counts of a list -/

theorem take_orderedInsert_take (n : Nat) (x : Int) (S : List Int) :
    ((S.take n).orderedInsert (fun x y => y ≤ x) x).take n =
      (S.orderedInsert (fun x y => y ≤ x) x).take n := by
  induction S generalizing n with
  | nil => simp
  | cons s S ih =>
    cases n with
    | zero => simp
    | succ n =>
      simp only [List.take_succ_cons, List.orderedInsert]
      split_ifs with h
      · simp only [List.take_succ_cons]
        congr 1
        cases n with
        | zero => simp
        | succ m => simp [List.take_succ_cons, List.take_take]
      · simp only [List.take_succ_cons]
        rw [ih n]

theorem top_counts_cons (x : Int) (X : List Int) :
    top_counts (x :: X) = ((top_counts X).orderedInsert (fun x y => y ≤ x) x).take TOP_N := by
  unfold top_counts
  rw [take_orderedInsert_take]
  rfl

theorem top_counts_of_sorted (X : List Int) (h : X.Sorted (fun x y => y ≤ x)) :
    top_counts X = X.take TOP_N := by
  unfold top_counts
  rw [List.Sorted.insertionSort_eq h]

theorem sorted_top_counts (X : List Int) : (top_counts X).Sorted (fun x y => y ≤ x) :=
  List.Pairwise.take (List.sorted_insertionSort _ X)

theorem top_counts_idem (X : List Int) : top_counts (top_counts X) = top_counts X := by
  rw [top_counts_of_sorted _ (sorted_top_counts X)]
  unfold top_counts
  rw [List.take_take, min_self]

theorem top_counts_perm (X Y : List Int) (h : X.Perm Y) : top_counts X = top_counts Y := by
  unfold top_counts
  congr 1
  apply List.eq_of_perm_of_sorted (r := fun x y : Int => y ≤ x)
  · exact (List.perm_insertionSort _ X).trans (h.trans (List.perm_insertionSort _ Y).symm)
  · exact List.sorted_insertionSort _ X
  · exact List.sorted_insertionSort _ Y

theorem top_counts_append_right (X Y : List Int) :
    top_counts (X ++ top_counts Y) = top_counts (X ++ Y) := by
  induction X with
  | nil => simpa using top_counts_idem Y
  | cons x X ih => rw [List.cons_append, List.cons_append, top_counts_cons, top_counts_cons, ih]

theorem top_counts_append_left (X Y : List Int) :
    top_counts (top_counts X ++ Y) = top_counts (X ++ Y) := by
  rw [top_counts_perm _ _ List.perm_append_comm, top_counts_append_right,
    top_counts_perm _ _ List.perm_append_comm]

/-- Keeping only the largest counts of every part does not change the largest counts of the
whole. -/
theorem top_counts_flatten (Xs : List (List Int)) :
    top_counts (Xs.map top_counts).flatten = top_counts Xs.flatten := by
  induction Xs with
  | nil => rfl
  | cons X Xs ih =>
    rw [List.map_cons, List.flatten_cons, List.flatten_cons, top_counts_append_left,
      ← top_counts_append_right, ih, top_counts_append_right]

/-! ## Sorting followed by the sweep -/

/-- When the receive loop completes, `all_results` is what it was before the loop followed by the
workers' arrays in rank order. -/
theorem main_collect_some (libc : Libc) (all_results : Option (List HourlyStats))
    (ls : List (List HourlyStats)) (L : List HourlyStats)
    (h : main_collect libc all_results ls = some L) :
    L = all_results.getD [] ++ ls.flatten := by
  induction ls generalizing all_results with
  | nil =>
    simp only [main_collect, Option.some.injEq] at h
    simp [← h]
  | cons l ls ih =>
    simp only [main_collect] at h
    split_ifs at h
    have := ih _ h
    simpa using this

/-- With a non-null `malloc(0)` the receive loop completes once `all_results` is not empty. -/
theorem main_collect_of_ne_nil (libc : Libc) (hm : libc.malloc_zero = true)
    (all_results : List HourlyStats) (hne : all_results ≠ []) (ls : List (List HourlyStats)) :
    main_collect libc (some all_results) ls = some (all_results ++ ls.flatten) := by
  induction ls generalizing all_results with
  | nil => simp [main_collect]
  | cons l ls ih =>
    have h1 : malloc_ok libc l.length = true := by simp [malloc_ok, hm]
    have hlen : all_results.length ≠ 0 := fun h => hne (List.length_eq_zero.1 h)
    have h2 : realloc_ok libc true (all_results.length + l.length) = true := by
      have : all_results.length + l.length ≠ 0 := by omega
      simp [realloc_ok, this]
    simp only [main_collect, Option.getD_some, Option.isSome_some, h1, h2, Bool.true_eq_false,
      if_false]
    rw [ih (all_results ++ l) (by simp [hne])]
    simp

/-- With a non-null `malloc(0)` the receive loop completes when the first worker sends a
non-empty array. -/
theorem main_collect_first_ne_nil (libc : Libc) (hm : libc.malloc_zero = true)
    (l : List HourlyStats) (hne : l ≠ []) (ls : List (List HourlyStats)) :
    main_collect libc none (l :: ls) = some (l :: ls).flatten := by
  have h1 : malloc_ok libc l.length = true := by simp [malloc_ok, hm]
  have h2 : realloc_ok libc false (0 + l.length) = true := by simp [realloc_ok, hm]
  simp only [main_collect, Option.getD_none, Option.isSome_none, List.length_nil, h1, h2,
    Bool.true_eq_false, if_false, List.nil_append]
  rw [main_collect_of_ne_nil libc hm l hne ls]
  simp

/-- With a non-null `malloc(0)` the receive loop completes when there is one worker. -/
theorem main_collect_single (libc : Libc) (hm : libc.malloc_zero = true) (l : List HourlyStats) :
    main_collect libc none [l] = some l := by
  simp [main_collect, malloc_ok, realloc_ok, hm]

/-- With the GNU C library the receive loop aborts exactly when the first two workers send
empty arrays. -/
theorem main_collect_glibc (ls : List (List HourlyStats)) :
    main_collect glibc none ls = none ↔ ∃ rest, ls = [] :: [] :: rest := by
  have hm : glibc.malloc_zero = true := rfl
  match ls with
  | [] => simp [main_collect]
  | [l] => simp [main_collect_single glibc hm]
  | (a :: l) :: rest => simp [main_collect_first_ne_nil glibc hm (a :: l) (by simp)]
  | [] :: (a :: l) :: rest =>
    have : main_collect glibc none ([] :: (a :: l) :: rest) =
        main_collect glibc (some (a :: l)) rest := by
      simp [main_collect, malloc_ok, realloc_ok, glibc]
    rw [this, main_collect_of_ne_nil glibc hm (a :: l) (by simp)]
    simp
  | [] :: [] :: rest => simp [main_collect, malloc_ok, realloc_ok, glibc]

/-- The global reduction of `main` is the second half of `process_data`. -/
theorem main_reduce_eq_top_n
    (qsort : (HourlyStats → HourlyStats → Int) → List HourlyStats → List HourlyStats)
    (xs : List HourlyStats) : main_reduce qsort xs = process_data_top_n qsort xs := by
  unfold main_reduce process_data_top_n
  rw [main_sweep_eq]
  cases xs <;> simp

theorem main_merge_eq
    (qsort : (HourlyStats → HourlyStats → Int) → List HourlyStats → List HourlyStats)
    (ls : List (List HourlyStats)) :
    main_merge qsort ls = process_data_top_n qsort ls.flatten := by
  unfold main_merge
  rw [main_reduce_eq_top_n]

/-- When the receive loop completes, the global reduction of `all_results` is `main_merge` of
the workers' arrays. -/
theorem main_merge_of_collect (libc : Libc)
    (qsort : (HourlyStats → HourlyStats → Int) → List HourlyStats → List HourlyStats)
    (ls : List (List HourlyStats)) (all_results : List HourlyStats)
    (h : main_collect libc none ls = some all_results) :
    main_reduce qsort all_results = main_merge qsort ls := by
  have := main_collect_some libc none ls all_results h
  rw [this]
  simp [main_merge]

theorem sorted_facts
    (qsort : (HourlyStats → HourlyStats → Int) → List HourlyStats → List HourlyStats)
    (hq : qsort_contract qsort) (xs : List HourlyStats) (hx : ∀ a ∈ xs, wf_stats a) :
    (qsort compare_stats xs).Perm xs ∧
    (∀ a ∈ qsort compare_stats xs, wf_stats a) ∧
    (qsort compare_stats xs).Pairwise (fun a b => compare_stats a b ≤ 0) ∧
    (qsort compare_stats xs).Pairwise (fun a b => strcmp a.hour b.hour ≤ 0) := by
  obtain ⟨hp, hs⟩ := hq compare_stats xs
    (compare_stats_consistent xs (fun a ha => (hx a ha).2.2))
  have hwf : ∀ a ∈ qsort compare_stats xs, wf_stats a := fun a ha => hx a (hp.mem_iff.1 ha)
  refine ⟨hp, hwf, hs, ?_⟩
  refine List.Pairwise.imp_of_mem ?_ hs
  intro a b ha hb hab
  rw [compare_stats_le_iff a b (hwf a ha).2.2 (hwf b hb).2.2] at hab
  rcases hab with h | ⟨h, _⟩
  · exact le_of_lt h
  · rw [h, strcmp_self]

theorem cmp_consistent_nil (cmp : HourlyStats → HourlyStats → Int) : cmp_consistent cmp [] :=
  ⟨fun _ h => absurd h (List.not_mem_nil _), fun _ h => absurd h (List.not_mem_nil _)⟩

theorem top_n_eq_sweep
    (qsort : (HourlyStats → HourlyStats → Int) → List HourlyStats → List HourlyStats)
    (hq : qsort_contract qsort) (xs : List HourlyStats) :
    process_data_top_n qsort xs = process_data_sweep [] 0 (qsort compare_stats xs) := by
  unfold process_data_top_n
  cases xs with
  | nil =>
    have := (hq compare_stats [] (cmp_consistent_nil _)).1
    rw [List.perm_nil] at this
    simp [this, process_data_sweep]
  | cons a l => simp

theorem top_n_sublist
    (qsort : (HourlyStats → HourlyStats → Int) → List HourlyStats → List HourlyStats)
    (hq : qsort_contract qsort) (xs : List HourlyStats) :
    (process_data_top_n qsort xs).Sublist (qsort compare_stats xs) := by
  rw [top_n_eq_sweep qsort hq xs]
  exact sweep_sublist _ _ _

theorem compare_stats_le_hour (a b : HourlyStats) (h : compare_stats a b ≤ 0) :
    strcmp a.hour b.hour ≤ 0 := by
  unfold compare_stats at h
  simp only at h
  split_ifs at h with h0
  · exact h
  · have : strcmp a.hour b.hour = 0 := by simpa using h0
    rw [this]

/-- With a consistent comparison the sorted array is a rearrangement ordered by hour key, and the
sweep keeps of every hour the first `TOP_N` entries. -/
theorem top_n_of_hour_of_consistent
    (qsort : (HourlyStats → HourlyStats → Int) → List HourlyStats → List HourlyStats)
    (hq : qsort_contract qsort) (xs : List HourlyStats)
    (hwf : ∀ a ∈ xs, wf_string 20 a.hour) (hc : cmp_consistent compare_stats xs)
    (h : List Nat) :
    (qsort compare_stats xs).Perm xs ∧
    of_hour h (process_data_top_n qsort xs) = (of_hour h (qsort compare_stats xs)).take TOP_N := by
  obtain ⟨hp, hs⟩ := hq compare_stats xs hc
  refine ⟨hp, ?_⟩
  have hsh : (qsort compare_stats xs).Pairwise (fun a b => strcmp a.hour b.hour ≤ 0) :=
    hs.imp (fun {a b} hab => compare_stats_le_hour a b hab)
  rw [top_n_eq_sweep qsort hq xs,
    sweep_of_hour [] 0 _ (fun a ha => hwf a (hp.mem_iff.1 ha)) hsh
      (fun _ _ => strcmp_nil_le _) h]
  split_ifs <;> rfl

theorem top_n_length_of_consistent
    (qsort : (HourlyStats → HourlyStats → Int) → List HourlyStats → List HourlyStats)
    (hq : qsort_contract qsort) (xs : List HourlyStats)
    (hwf : ∀ a ∈ xs, wf_string 20 a.hour) (hc : cmp_consistent compare_stats xs)
    (h : List Nat) : (of_hour h (process_data_top_n qsort xs)).length ≤ TOP_N := by
  rw [(top_n_of_hour_of_consistent qsort hq xs hwf hc h).2, List.length_take]
  exact min_le_left _ _

theorem top_n_mem
    (qsort : (HourlyStats → HourlyStats → Int) → List HourlyStats → List HourlyStats)
    (hq : qsort_contract qsort) (xs : List HourlyStats) (hx : ∀ a ∈ xs, wf_stats a) :
    ∀ a ∈ process_data_top_n qsort xs, a ∈ xs := by
  intro a ha
  exact (sorted_facts qsort hq xs hx).1.mem_iff.1 ((top_n_sublist qsort hq xs).subset ha)

theorem top_n_sorted
    (qsort : (HourlyStats → HourlyStats → Int) → List HourlyStats → List HourlyStats)
    (hq : qsort_contract qsort) (xs : List HourlyStats) (hx : ∀ a ∈ xs, wf_stats a) :
    (process_data_top_n qsort xs).Pairwise (fun a b => compare_stats a b ≤ 0) :=
  (sorted_facts qsort hq xs hx).2.2.1.sublist (top_n_sublist qsort hq xs)

/-- Of every hour, the second half of `process_data` keeps the first `TOP_N` entries of the
sorted array. -/
theorem top_n_of_hour
    (qsort : (HourlyStats → HourlyStats → Int) → List HourlyStats → List HourlyStats)
    (hq : qsort_contract qsort) (xs : List HourlyStats) (hx : ∀ a ∈ xs, wf_stats a)
    (h : List Nat) :
    of_hour h (process_data_top_n qsort xs) = (of_hour h (qsort compare_stats xs)).take TOP_N := by
  obtain ⟨_, hwf, _, hs⟩ := sorted_facts qsort hq xs hx
  rw [top_n_eq_sweep qsort hq xs,
    sweep_of_hour [] 0 _ (fun a ha => (hwf a ha).1) hs (fun _ _ => strcmp_nil_le _) h]
  split_ifs <;> rfl

theorem of_hour_sorted_counts (h : List Nat) (l : List HourlyStats)
    (hwf : ∀ a ∈ l, wf_stats a) (hs : l.Pairwise (fun a b => compare_stats a b ≤ 0)) :
    (counts_of_hour h l).Sorted (fun x y => y ≤ x) := by
  unfold counts_of_hour of_hour
  rw [List.Sorted, List.pairwise_map]
  have h1 : (l.filter (fun a => a.hour = h)).Pairwise (fun a b => compare_stats a b ≤ 0) :=
    hs.sublist (List.filter_sublist l)
  refine List.Pairwise.imp_of_mem ?_ h1
  intro a b ha hb hab
  have ha' := List.mem_filter.1 ha
  have hb' := List.mem_filter.1 hb
  rw [compare_stats_le_iff a b (hwf a ha'.1).2.2 (hwf b hb'.1).2.2] at hab
  have e1 : a.hour = h := by simpa using ha'.2
  have e2 : b.hour = h := by simpa using hb'.2
  rcases hab with hlt | ⟨_, hle⟩
  · rw [e1, e2, strcmp_self] at hlt
    exact absurd hlt (lt_irrefl _)
  · exact hle

/-- The counts that the second half of `process_data` keeps for an hour are the `TOP_N` largest
counts of that hour. -/
theorem counts_top_n
    (qsort : (HourlyStats → HourlyStats → Int) → List HourlyStats → List HourlyStats)
    (hq : qsort_contract qsort) (xs : List HourlyStats) (hx : ∀ a ∈ xs, wf_stats a)
    (h : List Nat) :
    counts_of_hour h (process_data_top_n qsort xs) = top_counts (counts_of_hour h xs) := by
  obtain ⟨hp, hwf, hs, _⟩ := sorted_facts qsort hq xs hx
  have e1 : counts_of_hour h (process_data_top_n qsort xs) =
      (counts_of_hour h (qsort compare_stats xs)).take TOP_N := by
    unfold counts_of_hour
    rw [top_n_of_hour qsort hq xs hx h, List.map_take]
  have e2 : top_counts (counts_of_hour h xs) =
      top_counts (counts_of_hour h (qsort compare_stats xs)) := by
    apply top_counts_perm
    unfold counts_of_hour of_hour
    exact ((hp.filter _).map _).symm
  rw [e1, e2, top_counts_of_sorted _ (of_hour_sorted_counts h _ hwf hs)]

theorem counts_of_hour_flatten (h : List Nat) (ls : List (List HourlyStats)) :
    counts_of_hour h ls.flatten = (ls.map (counts_of_hour h)).flatten := by
  induction ls with
  | nil => rfl
  | cons l ls ih =>
    rw [List.flatten_cons, List.map_cons, List.flatten_cons, ← ih]
    unfold counts_of_hour of_hour
    rw [List.filter_append, List.map_append]

/-! ## The pairs (hour, total_count) of a sorted list -/

theorem beq_of_decEq_iff {α : Type} [DecidableEq α] (a b : α) :
    (@BEq.beq α instBEqOfDecidableEq a b = true) ↔ a = b :=
  decide_eq_true_iff

theorem count_hour_count (h : List Nat) (c : Int) (l : List HourlyStats) :
    @List.count (List Nat × Int) instBEqOfDecidableEq (h, c) (l.map hour_count) =
      @List.count Int instBEqOfDecidableEq c (counts_of_hour h l) := by
  induction l with
  | nil => rfl
  | cons a l ih =>
    by_cases hh : a.hour = h
    · unfold counts_of_hour at ih ⊢
      rw [of_hour_cons_pos h a l hh, List.map_cons, List.map_cons,
        @List.count_cons _ instBEqOfDecidableEq, @List.count_cons _ instBEqOfDecidableEq, ih]
      simp only [hour_count, hh, beq_of_decEq_iff, Prod.mk.injEq, true_and]
    · unfold counts_of_hour at ih ⊢
      rw [of_hour_cons_neg h a l hh, List.map_cons, @List.count_cons _ instBEqOfDecidableEq, ih]
      simp only [hour_count, hh, beq_of_decEq_iff, Prod.mk.injEq, false_and, if_false, add_zero]

theorem report_le_antisymm (p q : List Nat × Int) (h1 : report_le p q) (h2 : report_le q p) :
    p = q := by
  unfold report_le at h1 h2
  have hs := strcmp_swap p.1 q.1
  rcases h1 with h1 | ⟨e1, c1⟩
  · rcases h2 with h2 | ⟨e2, _⟩
    · omega
    · rw [e2, strcmp_self] at h1; exact absurd h1 (lt_irrefl _)
  · rcases h2 with h2 | ⟨_, c2⟩
    · rw [e1, strcmp_self] at h2; exact absurd h2 (lt_irrefl _)
    · exact Prod.ext e1 (le_antisymm c2 c1)

theorem hour_count_sorted (l : List HourlyStats) (hwf : ∀ a ∈ l, wf_stats a)
    (hs : l.Pairwise (fun a b => compare_stats a b ≤ 0)) :
    (l.map hour_count).Pairwise report_le := by
  rw [List.pairwise_map]
  refine List.Pairwise.imp_of_mem ?_ hs
  intro a b ha hb hab
  rw [compare_stats_le_iff a b (hwf a ha).2.2 (hwf b hb).2.2] at hab
  exact hab

/-- Two sorted lists with the same counts in every hour have the same sequence of pairs
(hour, total_count). -/
theorem hour_count_eq_of_counts (l₁ l₂ : List HourlyStats)
    (hwf₁ : ∀ a ∈ l₁, wf_stats a) (hwf₂ : ∀ a ∈ l₂, wf_stats a)
    (hs₁ : l₁.Pairwise (fun a b => compare_stats a b ≤ 0))
    (hs₂ : l₂.Pairwise (fun a b => compare_stats a b ≤ 0))
    (hc : ∀ h, counts_of_hour h l₁ = counts_of_hour h l₂) :
    l₁.map hour_count = l₂.map hour_count := by
  have hp : (l₁.map hour_count).Perm (l₂.map hour_count) := by
    rw [List.perm_iff_count]
    rintro ⟨h, c⟩
    rw [count_hour_count, count_hour_count, hc h]
  exact @List.eq_of_perm_of_sorted _ report_le ⟨report_le_antisymm⟩ _ _ hp
    (hour_count_sorted l₁ hwf₁ hs₁) (hour_count_sorted l₂ hwf₂ hs₂)

/-- Pruning every list before the merge does not change the pairs (hour, total_count) of the
merged report. -/
theorem merge_pruned_hour_count
    (qsort : (HourlyStats → HourlyStats → Int) → List HourlyStats → List HourlyStats)
    (hq : qsort_contract qsort) (ls : List (List HourlyStats))
    (hwf : ∀ l ∈ ls, ∀ a ∈ l, wf_stats a) :
    (process_data_top_n qsort (ls.map (process_data_top_n qsort)).flatten).map hour_count =
      (process_data_top_n qsort ls.flatten).map hour_count := by
  have hw2 : ∀ a ∈ ls.flatten, wf_stats a := by
    intro a ha
    obtain ⟨l, hl, hal⟩ := List.mem_flatten.1 ha
    exact hwf l hl a hal
  have hw1 : ∀ a ∈ (ls.map (process_data_top_n qsort)).flatten, wf_stats a := by
    intro a ha
    obtain ⟨t, ht, hat⟩ := List.mem_flatten.1 ha
    obtain ⟨l, hl, rfl⟩ := List.mem_map.1 ht
    exact hwf l hl a (top_n_mem qsort hq l (hwf l hl) a hat)
  apply hour_count_eq_of_counts
  · exact fun a ha => hw1 a (top_n_mem qsort hq _ hw1 a ha)
  · exact fun a ha => hw2 a (top_n_mem qsort hq _ hw2 a ha)
  · exact top_n_sorted qsort hq _ hw1
  · exact top_n_sorted qsort hq _ hw2
  · intro h
    rw [counts_top_n qsort hq _ hw1, counts_top_n qsort hq _ hw2, counts_of_hour_flatten,
      counts_of_hour_flatten, List.map_map]
    have : ls.map (counts_of_hour h ∘ process_data_top_n qsort) =
        (ls.map (counts_of_hour h)).map top_counts := by
      rw [List.map_map]
      apply List.map_congr_left
      intro l hl
      exact counts_top_n qsort hq l (hwf l hl) h
    rw [this, top_counts_flatten]

/-! ## Ranges -/

theorem bucket_sublist (s rs : List TrafficRecord) (hs : s.Sublist rs) (h l : List Nat) :
    (bucket s h l).Sublist (bucket rs h l) := hs.filter _

theorem bucket_sum_nonneg (rs : List TrafficRecord) (hn : ∀ r ∈ rs, 0 ≤ r.count)
    (h l : List Nat) : 0 ≤ bucket_sum rs h l := by
  unfold bucket_sum
  apply List.sum_nonneg
  intro x hx
  obtain ⟨r, hr, rfl⟩ := List.mem_map.1 hx
  exact hn r (List.mem_filter.1 hr).1

theorem bucket_sum_sublist_le (s rs : List TrafficRecord) (hs : s.Sublist rs)
    (hn : ∀ r ∈ rs, 0 ≤ r.count) (h l : List Nat) : bucket_sum s h l ≤ bucket_sum rs h l := by
  unfold bucket_sum
  apply List.Sublist.sum_le_sum ((bucket_sublist s rs hs h l).map _)
  intro x hx
  obtain ⟨r, hr, rfl⟩ := List.mem_map.1 hx
  exact hn r (List.mem_filter.1 hr).1

theorem in_range_sublist (s rs : List TrafficRecord) (hs : s.Sublist rs) (hr : in_range rs) :
    in_range s := by
  refine ⟨fun r h => hr.1 r (hs.subset h), fun r h => ?_⟩
  exact (bucket_sum_sublist_le s rs hs (fun x hx => (hr.1 x hx).2) _ _).trans
    (hr.2 r (hs.subset h))

theorem bucket_sum_le_of_ne_nil (rs : List TrafficRecord) (hr : in_range rs) (h l : List Nat)
    (hb : bucket rs h l ≠ []) : bucket_sum rs h l ≤ INT_MAX := by
  obtain ⟨r, hrm⟩ := List.exists_mem_of_ne_nil _ hb
  have hm := List.mem_filter.1 hrm
  have e : extract_hour r.timestamp = h ∧ r.traffic_light = l := by simpa using hm.2
  have := hr.2 r hm.1
  rwa [e.1, e.2] at this

/-- On records in range every aggregate is a proper `HourlyStats` value with a count between `0`
and `INT_MAX`, equal to the sum of its bucket. -/
theorem aggregate_wf_stats (rs : List TrafficRecord) (hr : in_range rs) :
    ∀ a ∈ process_data_aggregate rs,
      wf_stats a ∧ a.count = bucket_sum rs a.hour a.traffic_light := by
  intro a ha
  obtain ⟨_, h2, _⟩ := aggregate_invariant rs (fun r h => (hr.1 r h).1.2.1)
  obtain ⟨w1, w2, w3, w4⟩ := h2 a ha
  have hn := bucket_sum_nonneg rs (fun r h => (hr.1 r h).2) a.hour a.traffic_light
  have hm := bucket_sum_le_of_ne_nil rs hr _ _ w3
  have hc : a.count = bucket_sum rs a.hour a.traffic_light := by
    rcases w4 with w4 | w4
    · exact w4
    · rw [w4]
      apply wrap_int_of_range
      · simp only [INT_MIN]; omega
      · exact hm
  exact ⟨⟨w1, w2, by rw [hc]; exact hn, by rw [hc]; exact hm⟩, hc⟩

theorem main_slices_sublist (rs : List TrafficRecord) (size : Int) :
    ∀ s ∈ main_slices rs size, s.Sublist rs := by
  intro s hs
  unfold main_slices at hs
  obtain ⟨p, _, rfl⟩ := List.mem_map.1 hs
  exact (List.take_sublist _ _).trans (List.drop_sublist _ _)

/-! ## Aggregation of slices that share no bucket -/

theorem step_append (T U : List HourlyStats) (r : TrafficRecord)
    (hT : ∀ x ∈ T, ¬(x.hour = extract_hour r.timestamp ∧ x.traffic_light = r.traffic_light)) :
    process_data_step (T ++ U) r = T ++ process_data_step U r := by
  have hsc := scan_append_left (extract_hour r.timestamp) r.traffic_light r.count T U hT
  cases hu : process_data_scan (extract_hour r.timestamp) r.traffic_light r.count U with
  | none =>
    rw [hu] at hsc
    rw [step_of_none _ _ hu, step_of_none _ _ hsc, List.append_assoc]
  | some t =>
    rw [hu] at hsc
    rw [step_of_some _ _ _ hu, step_of_some _ _ _ hsc]

theorem foldl_step_append (T U : List HourlyStats) (s : List TrafficRecord)
    (hT : ∀ r ∈ s, ∀ x ∈ T,
      ¬(x.hour = extract_hour r.timestamp ∧ x.traffic_light = r.traffic_light)) :
    s.foldl process_data_step (T ++ U) = T ++ s.foldl process_data_step U := by
  induction s generalizing U with
  | nil => rfl
  | cons r s ih =>
    rw [List.foldl_cons, List.foldl_cons, step_append T U r (hT r (by simp))]
    exact ih _ (fun r' hr' => hT r' (by simp [hr']))

theorem aggregate_append (s t : List TrafficRecord)
    (hwf : ∀ r ∈ s, wf_string 10 r.traffic_light)
    (hd : ∀ r ∈ s, ∀ r' ∈ t,
      ¬(extract_hour r.timestamp = extract_hour r'.timestamp ∧
        r.traffic_light = r'.traffic_light)) :
    process_data_aggregate (s ++ t) = process_data_aggregate s ++ process_data_aggregate t := by
  obtain ⟨_, h2, _⟩ := aggregate_invariant s hwf
  unfold process_data_aggregate
  rw [List.foldl_append]
  have := foldl_step_append (s.foldl process_data_step []) [] t ?_
  · rwa [List.append_nil] at this
  · intro r' hr' x hx hm
    obtain ⟨_, _, w3, _⟩ := h2 x hx
    obtain ⟨r, hrm⟩ := List.exists_mem_of_ne_nil _ w3
    have hm' := List.mem_filter.1 hrm
    have e : extract_hour r.timestamp = x.hour ∧ r.traffic_light = x.traffic_light := by
      simpa using hm'.2
    exact hd r hm'.1 r' hr' ⟨e.1.trans hm.1, e.2.trans hm.2⟩

/-- The aggregation of the whole array is the concatenation of the aggregations of the slices
when no bucket is split. -/
theorem aggregate_flatten (slices : List (List TrafficRecord))
    (hwf : ∀ s ∈ slices, ∀ r ∈ s, wf_string 10 r.traffic_light) (hd : split_free slices) :
    process_data_aggregate slices.flatten = (slices.map process_data_aggregate).flatten := by
  induction slices with
  | nil => rfl
  | cons s rest ih =>
    have hd' := List.pairwise_cons.1 hd
    rw [List.flatten_cons, List.map_cons, List.flatten_cons,
      aggregate_append s rest.flatten (hwf s (by simp)), ih (fun t ht => hwf t (by simp [ht])) hd'.2]
    intro r hr r' hr'
    obtain ⟨t, ht, hrt⟩ := List.mem_flatten.1 hr'
    exact hd'.1 t ht r hr r' hrt

/-! ## The distributed pipeline -/

theorem map_injOn_eq {α β : Type} (f : α → β) (l₁ l₂ : List α)
    (hinj : ∀ a ∈ l₁, ∀ b ∈ l₂, f a = f b → a = b) (h : l₁.map f = l₂.map f) : l₁ = l₂ := by
  induction l₁ generalizing l₂ with
  | nil => cases l₂ with
    | nil => rfl
    | cons b l₂ => simp at h
  | cons a l₁ ih =>
    cases l₂ with
    | nil => simp at h
    | cons b l₂ =>
      simp only [List.map_cons, List.cons.injEq] at h
      rw [hinj a (by simp) b (by simp) h.1,
        ih l₂ (fun x hx y hy => hinj x (by simp [hx]) y (by simp [hy])) h.2]

/-- With both allocations successful `process_data_mem` is `process_data`. -/
theorem process_data_mem_success
    (qsort : (HourlyStats → HourlyStats → Int) → List HourlyStats → List HourlyStats)
    (records : List TrafficRecord) :
    process_data_mem qsort true true records =
      (some (process_data qsort records), (process_data qsort records).length) := by
  unfold process_data_mem process_data process_data_top_n
  simp only [Bool.true_eq_false, if_false]
  split_ifs with h
  · rfl
  · rfl

/-- A worker that does not abort sends the result of `process_data` on its slice. -/
theorem main_worker_eq (libc : Libc)
    (qsort : (HourlyStats → HourlyStats → Int) → List HourlyStats → List HourlyStats)
    (records : List TrafficRecord) :
    main_worker libc qsort records =
      if malloc_ok libc records.length = false then none
      else some (process_data qsort records) := by
  unfold main_worker
  split_ifs with h
  · rfl
  · have h1 : malloc_ok libc records.length = true := by simpa using h
    rw [h1]
    cases h2 : malloc_ok libc (process_data_aggregate records).length with
    | true => simp [process_data_mem_success]
    | false =>
      have h3 : (process_data_aggregate records).length = 0 := by
        simp only [malloc_ok, Bool.or_eq_false_iff] at h2
        simpa using h2.1
      simp [process_data_mem, process_data, process_data_top_n, h3]

theorem main_workers_some (libc : Libc)
    (qsort : (HourlyStats → HourlyStats → Int) → List HourlyStats → List HourlyStats)
    (slices : List (List TrafficRecord)) (worker_results : List (List HourlyStats))
    (h : main_workers libc qsort slices = some worker_results) :
    worker_results = slices.map (process_data qsort) := by
  induction slices generalizing worker_results with
  | nil =>
    simp only [main_workers, Option.some.injEq] at h
    simp [← h]
  | cons s rest ih =>
    simp only [main_workers] at h
    rw [main_worker_eq] at h
    by_cases hm : malloc_ok libc s.length = false
    · simp [hm] at h
    · cases hw : main_workers libc qsort rest with
      | none => simp [hw] at h
      | some others =>
        simp only [hm, hw, Bool.true_eq_false, if_false, Option.some.injEq] at h
        rw [← h, ih others hw]
        rfl

theorem main_workers_eq (libc : Libc) (hm : libc.malloc_zero = true)
    (qsort : (HourlyStats → HourlyStats → Int) → List HourlyStats → List HourlyStats)
    (slices : List (List TrafficRecord)) :
    main_workers libc qsort slices = some (slices.map (process_data qsort)) := by
  induction slices with
  | nil => rfl
  | cons s rest ih =>
    have h1 : malloc_ok libc s.length = true := by simp [malloc_ok, hm]
    simp [main_workers, main_worker_eq, h1, ih]

/-- The report of `main`, when there is one, is the global reduction of the concatenated
results of `process_data` on the slices. -/
theorem main_some (libc : Libc)
    (qsort : (HourlyStats → HourlyStats → Int) → List HourlyStats → List HourlyStats)
    (size : Int) (rs : List TrafficRecord) (report : List HourlyStats)
    (h : main libc qsort size rs = some report) :
    2 ≤ size ∧
    report = main_merge qsort ((main_slices rs size).map (process_data qsort)) ∧
    report = process_data_top_n qsort
      ((main_slices rs size).map
        (fun s => process_data_top_n qsort (process_data_aggregate s))).flatten := by
  unfold main at h
  split_ifs at h with hs
  cases hw : main_workers libc qsort (main_slices rs size) with
  | none => simp [hw] at h
  | some ws =>
    cases hc : main_collect libc none ws with
    | none => simp [hw, hc] at h
    | some L =>
      simp only [hw, hc, Option.some.injEq] at h
      have e1 := main_workers_some libc qsort _ ws hw
      have e2 := main_merge_of_collect libc qsort ws L hc
      have e3 : report = main_merge qsort ((main_slices rs size).map (process_data qsort)) := by
        rw [← h, e2, e1]
      refine ⟨by omega, e3, ?_⟩
      rw [e3, main_merge_eq]
      rfl

/-- The sweep keeps the first entry of a sorted array. -/
theorem sweep_ne_nil (current_hour : List Nat) (a : HourlyStats) (l : List HourlyStats) :
    process_data_sweep current_hour 0 (a :: l) ≠ [] := by
  simp [process_data_sweep, TOP_N]

/-- The result of `process_data` on a non-empty slice is not empty. -/
theorem process_data_ne_nil
    (qsort : (HourlyStats → HourlyStats → Int) → List HourlyStats → List HourlyStats)
    (hq : qsort_contract qsort) (s : List TrafficRecord) (hr : in_range s) (hne : s ≠ []) :
    process_data qsort s ≠ [] := by
  obtain ⟨r, hrm⟩ := List.exists_mem_of_ne_nil _ hne
  obtain ⟨_, _, h3⟩ := aggregate_invariant s (fun r h => (hr.1 r h).1.2.1)
  obtain ⟨a, ha, _⟩ := h3 r hrm
  have hwf : ∀ x ∈ process_data_aggregate s, wf_stats x :=
    fun x hx => (aggregate_wf_stats s hr x hx).1
  have hperm := (sorted_facts qsort hq _ hwf).1
  have hmem : a ∈ qsort compare_stats (process_data_aggregate s) := hperm.mem_iff.2 ha
  unfold process_data
  rw [top_n_eq_sweep qsort hq]
  cases hso : qsort compare_stats (process_data_aggregate s) with
  | nil => simp [hso] at hmem
  | cons b l => exact sweep_ne_nil [] b l

/-- The first worker receives at least one record when there is one. -/
theorem main_slices_first (rs : List TrafficRecord) (hne : rs ≠ []) (size : Int) (hs : 2 ≤ size) :
    ∃ s rest, main_slices rs size = s :: rest ∧ s ≠ [] := by
  have hlen : 0 < rs.length := List.length_pos.2 hne
  obtain ⟨k, hk⟩ : ∃ k : Nat, (size - 1).toNat = k + 1 := ⟨(size - 1).toNat - 1, by omega⟩
  have hw : 0 < size - 1 := by omega
  have h1 : 0 ≤ Int.tdiv (rs.length : Int) (size - 1) := Int.tdiv_nonneg (by omega) (by omega)
  have h2 := Int.tmod_nonneg (size - 1) (show (0 : Int) ≤ (rs.length : Int) by omega)
  have h4 := Int.tdiv_add_tmod (rs.length : Int) (size - 1)
  have hc : 1 ≤ Int.tdiv (rs.length : Int) (size - 1) +
      (if 1 ≤ Int.tmod (rs.length : Int) (size - 1) then 1 else 0) := by
    split_ifs with h5
    · omega
    · have h6 : Int.tmod (rs.length : Int) (size - 1) = 0 := by omega
      rw [h6, add_zero] at h4
      by_contra hcon
      have h7 : Int.tdiv (rs.length : Int) (size - 1) = 0 := by omega
      rw [h7, mul_zero] at h4
      omega
  unfold main_slices main_dispatch
  rw [hk]
  simp only [main_dispatch_loop, List.map_cons]
  refine ⟨_, _, rfl, ?_⟩
  cases rs with
  | nil => exact absurd rfl hne
  | cons r rest =>
    obtain ⟨m, hm⟩ : ∃ m : Nat, (Int.tdiv ((r :: rest).length : Int) (size - 1) +
        (if 1 ≤ Int.tmod ((r :: rest).length : Int) (size - 1) then 1 else 0)).toNat = m + 1 :=
      ⟨_, (Nat.succ_pred_eq_of_pos (by omega)).symm⟩
    simp only [Int.toNat_zero, List.drop_zero]
    rw [hm]
    simp

/-- The program ends with a report when it runs with a non-null `malloc(0)` on a non-empty
record sequence, or with one worker. -/
theorem main_runs (libc : Libc) (hm : libc.malloc_zero = true)
    (qsort : (HourlyStats → HourlyStats → Int) → List HourlyStats → List HourlyStats)
    (hq : qsort_contract qsort) (size : Int) (hs : 2 ≤ size) (rs : List TrafficRecord)
    (hr : in_range rs) (hne : rs ≠ [] ∨ size = 2) :
    ∃ report, main libc qsort size rs = some report := by
  unfold main
  rw [if_neg (by omega), main_workers_eq libc hm]
  rcases hne with hne | h2
  · obtain ⟨s, rest, e, hsne⟩ := main_slices_first rs hne size hs
    have hsub : s.Sublist rs := main_slices_sublist rs size s (by simp [e])
    have hp := process_data_ne_nil qsort hq s (in_range_sublist s rs hsub hr) hsne
    rw [e, List.map_cons]
    simp only [main_collect_first_ne_nil libc hm _ hp]
    exact ⟨_, rfl⟩
  · have hl : (main_slices rs size).length = 1 := by
      unfold main_slices main_dispatch
      rw [List.length_map, dispatch_loop_length, h2]
      rfl
    obtain ⟨s, e⟩ := List.length_eq_one.1 hl
    rw [e]
    simp only [List.map_cons, List.map_nil, main_collect_single libc hm]
    exact ⟨_, rfl⟩

/-- With the GNU C library and at least two workers the program ends without a report on an
empty record sequence. -/
theorem main_glibc_empty
    (qsort : (HourlyStats → HourlyStats → Int) → List HourlyStats → List HourlyStats) (W : Nat) :
    main glibc qsort ((W : Int) + 3) [] = none := by
  have hk : ((W : Int) + 3 - 1).toNat = W + 1 + 1 := by omega
  have hsl : main_slices [] ((W : Int) + 3) =
      [] :: [] :: (main_slices [] ((W : Int) + 3)).drop 2 := by
    unfold main_slices main_dispatch
    rw [hk]
    simp [main_dispatch_loop]
  unfold main
  rw [if_neg (by omega), main_workers_eq glibc rfl, hsl]
  have : main_collect glibc none
      (List.map (process_data qsort) ([] :: [] :: (main_slices [] ((W : Int) + 3)).drop 2)) =
      none := by
    rw [main_collect_glibc]
    exact ⟨_, rfl⟩
  simp only [this]

/-- When no bucket is split between two slices, the global reduction of the workers' results
and the result of one `process_data` call on all records have the same pairs
(hour, total_count); they are equal when, in addition, no two buckets of one hour have the same
total. -/
theorem pipeline_of_split_free
    (qsort : (HourlyStats → HourlyStats → Int) → List HourlyStats → List HourlyStats)
    (hq : qsort_contract qsort) (size : Int) (hs : 2 ≤ size) (rs : List TrafficRecord)
    (hr : in_range rs) (hd : split_free (main_slices rs size)) (report : List HourlyStats)
    (hrep : report = process_data_top_n qsort
      ((main_slices rs size).map
        (fun s => process_data_top_n qsort (process_data_aggregate s))).flatten) :
    report.map hour_count = (process_data qsort rs).map hour_count ∧
    (tie_free (process_data_aggregate rs) → report = process_data qsort rs) := by
  subst hrep
  have hsl := main_slices_sublist rs size
  have hwfs : ∀ s ∈ main_slices rs size, ∀ r ∈ s, wf_string 10 r.traffic_light :=
    fun s hs' r h => (hr.1 r ((hsl s hs').subset h)).1.2.1
  have hagg : process_data_aggregate rs =
      ((main_slices rs size).map process_data_aggregate).flatten := by
    rw [← aggregate_flatten _ hwfs hd, main_slices_flatten rs size hs]
  have hwf : ∀ l ∈ (main_slices rs size).map process_data_aggregate, ∀ a ∈ l, wf_stats a := by
    intro l hl a ha
    obtain ⟨s, hs', rfl⟩ := List.mem_map.1 hl
    exact (aggregate_wf_stats s (in_range_sublist s rs (hsl s hs') hr) a ha).1
  have hkey := merge_pruned_hour_count qsort hq _ hwf
  rw [List.map_map] at hkey
  have hkey' : (process_data_top_n qsort
        ((main_slices rs size).map
          (fun s => process_data_top_n qsort (process_data_aggregate s))).flatten).map
        hour_count = (process_data qsort rs).map hour_count := by
    unfold process_data
    rw [hagg]
    exact hkey
  refine ⟨hkey', fun htf => ?_⟩
  apply map_injOn_eq hour_count _ _ ?_ hkey'
  have hall : ∀ a ∈ process_data_aggregate rs, wf_stats a :=
    fun a ha => (aggregate_wf_stats rs hr a ha).1
  intro a ha b hb hab
  have hb' : b ∈ process_data_aggregate rs := top_n_mem qsort hq _ hall b hb
  have hw1 : ∀ x ∈ ((main_slices rs size).map
      (fun s => process_data_top_n qsort (process_data_aggregate s))).flatten,
      x ∈ process_data_aggregate rs := by
    intro x hx
    obtain ⟨t, ht, hxt⟩ := List.mem_flatten.1 hx
    obtain ⟨s, hs', rfl⟩ := List.mem_map.1 ht
    rw [hagg]
    refine List.mem_flatten.2 ⟨process_data_aggregate s, List.mem_map.2 ⟨s, hs', rfl⟩, ?_⟩
    exact top_n_mem qsort hq _ (hwf _ (List.mem_map.2 ⟨s, hs', rfl⟩)) x hxt
  have ha' : a ∈ process_data_aggregate rs :=
    hw1 a (top_n_mem qsort hq _ (fun x hx => hall x (hw1 x hx)) a ha)
  simp only [hour_count, Prod.mk.injEq] at hab
  exact htf a ha' b hb' hab.1 hab.2

/-! ## Properties of the specification -/

/-- C1 (counterexample). Two records of the same traffic light and minute, sent to two
workers (`size = 3`): the distributed report lists the light twice, with 10 and with 5 vehicles,
while `process_data` on both records reports it once with 15. -/
theorem distributed_report_differs_on_split_bucket :
    qsort_contract qsort_ref ∧ in_range split_example ∧
    main glibc qsort_ref 3 split_example =
      some [{ hour := str "2024-01-01 08 05", traffic_light := str "L1", count := 10 },
            { hour := str "2024-01-01 08 05", traffic_light := str "L1", count := 5 }] ∧
    process_data qsort_ref split_example =
      [{ hour := str "2024-01-01 08 05", traffic_light := str "L1", count := 15 }] :=
  ⟨qsort_ref_contract, by decide, by decide, by decide⟩

/-- C1 (amended). For records in range and at least one worker, when no bucket (hour key, light)
has records in two slices of the partition: the report of the program has the sequence of pairs
(hour, total_count) of `process_data` applied once to all records, and the two reports are
identical when, in addition, no two buckets of one hour have the same total; and the program
does end with a report when the record sequence is not empty or there is one worker, the C
library returning a non-null pointer for `malloc(0)`. -/
theorem distributed_report_of_split_free (libc : Libc)
    (qsort : (HourlyStats → HourlyStats → Int) → List HourlyStats → List HourlyStats)
    (hq : qsort_contract qsort) (size : Int) (hs : 2 ≤ size) (records : List TrafficRecord)
    (hr : in_range records) (hd : split_free (main_slices records size)) :
    (∀ report, main libc qsort size records = some report →
      report.map hour_count = (process_data qsort records).map hour_count ∧
      (tie_free (process_data_aggregate records) → report = process_data qsort records)) ∧
    (libc.malloc_zero = true → (records ≠ [] ∨ size = 2) →
      ∃ report, main libc qsort size records = some report) :=
  ⟨fun report h => pipeline_of_split_free qsort hq size hs records hr hd report
      (main_some libc qsort size records report h).2.2,
    fun hm hne => main_runs libc hm qsort hq size hs records hr hne⟩

/-- An instance of `distributed_report_of_split_free` on a sample input. -/
theorem distributed_report_of_split_free_witness :
    qsort_contract qsort_ref ∧ (2 : Int) ≤ 3 ∧ in_range spec_example ∧
    split_free (main_slices spec_example 3) ∧ tie_free (process_data_aggregate spec_example) ∧
    glibc.malloc_zero = true ∧ spec_example ≠ [] ∧
    ∃ report, main glibc qsort_ref 3 spec_example = some report ∧
      report.map hour_count = (process_data qsort_ref spec_example).map hour_count ∧
      report = process_data qsort_ref spec_example :=
  ⟨qsort_ref_contract, by decide, by decide, by decide, by decide, rfl, by decide,
    ((distributed_report_of_split_free glibc qsort_ref qsort_ref_contract 3 (by decide)
      spec_example (by decide) (by decide)).2 rfl (Or.inl (by decide))).imp
      (fun report h =>
        ⟨h, ((distributed_report_of_split_free glibc qsort_ref qsort_ref_contract 3 (by decide)
            spec_example (by decide) (by decide)).1 report h).1,
          ((distributed_report_of_split_free glibc qsort_ref qsort_ref_contract 3 (by decide)
            spec_example (by decide) (by decide)).1 report h).2 (by decide)⟩)⟩

/-- C2 (the code at the failing input). `extract_hour` keeps the minutes: the two timestamps
of 08:05 and 08:20 get two different keys of 16 characters, and the two records of light `L1` in
the example of the specification stay in two buckets (10 and 5) instead of one bucket of 15. -/
theorem extract_hour_keeps_minutes :
    extract_hour (str "2024-01-01 08:05") = str "2024-01-01 08 05" ∧
    extract_hour (str "2024-01-01 08:20") = str "2024-01-01 08 20" ∧
    process_data_aggregate spec_example =
      [{ hour := str "2024-01-01 08 05", traffic_light := str "L1", count := 10 },
       { hour := str "2024-01-01 08 20", traffic_light := str "L1", count := 5 },
       { hour := str "2024-01-01 08 10", traffic_light := str "L2", count := 20 },
       { hour := str "2024-01-01 09 00", traffic_light := str "L1", count := 7 }] := by
  decide

theorem stats_of_nodup (l : List HourlyStats)
    (hn : (l.map (fun a => (a.hour, a.traffic_light))).Nodup) (h t : List Nat) :
    stats_of l h t = [] ∨ ∃ a ∈ l, stats_of l h t = [a] := by
  induction l with
  | nil => left; rfl
  | cons a l ih =>
    rw [List.map_cons, List.nodup_cons] at hn
    by_cases hm : a.hour = h ∧ a.traffic_light = t
    · right
      refine ⟨a, by simp, ?_⟩
      have : stats_of l h t = [] := by
        unfold stats_of
        rw [List.filter_eq_nil_iff]
        intro b hb hbm
        simp only [decide_eq_true_eq] at hbm
        apply hn.1
        rw [List.mem_map]
        exact ⟨b, hb, by rw [hbm.1, hbm.2, hm.1, hm.2]⟩
      unfold stats_of at this ⊢
      rw [List.filter_cons_of_pos (by simpa using hm), this]
    · have e : stats_of (a :: l) h t = stats_of l h t := by
        unfold stats_of
        rw [List.filter_cons_of_neg (by simpa using hm)]
      rw [e]
      rcases ih hn.2 with h0 | ⟨b, hb, hb'⟩
      · left; exact h0
      · right; exact ⟨b, by simp [hb], hb'⟩

/-- C3. Aggregation correctness: for every sequence of records (traffic-light fields properly
terminated) and every pair (hour key, light) whose bucket sum fits in `int`, the counts of the
aggregates of `temp_stats` that carry the pair add up to the sum of `count` over the records
whose `extract_hour(timestamp)` and `traffic_light` are that pair; and the pair is absent from
the aggregates exactly when no record has it. -/
theorem aggregation_correct (records : List TrafficRecord)
    (hwf : ∀ r ∈ records, wf_string 10 r.traffic_light) (hour light : List Nat)
    (hfit : INT_MIN ≤ bucket_sum records hour light ∧ bucket_sum records hour light ≤ INT_MAX) :
    stats_sum (process_data_aggregate records) hour light = bucket_sum records hour light ∧
    (stats_of (process_data_aggregate records) hour light = [] ↔
      bucket records hour light = []) := by
  obtain ⟨h1, h2, h3⟩ := aggregate_invariant records hwf
  rcases stats_of_nodup _ h1 hour light with h0 | ⟨a, ha, h0⟩
  · have hb : bucket records hour light = [] := by
      unfold bucket
      rw [List.filter_eq_nil_iff]
      intro r hr hm
      simp only [decide_eq_true_eq] at hm
      obtain ⟨a, ha, e1, e2⟩ := h3 r hr
      have : a ∈ stats_of (process_data_aggregate records) hour light := by
        unfold stats_of
        rw [List.mem_filter]
        exact ⟨ha, by simp [e1, e2, hm.1, hm.2]⟩
      rw [h0] at this
      exact absurd this (List.not_mem_nil _)
    refine ⟨?_, by simp [h0, hb]⟩
    simp [stats_sum, bucket_sum, h0, hb]
  · have hm : a ∈ stats_of (process_data_aggregate records) hour light := by simp [h0]
    have hk : a.hour = hour ∧ a.traffic_light = light := by
      unfold stats_of at hm
      simpa using (List.mem_filter.1 hm).2
    obtain ⟨_, _, w3, w4⟩ := h2 a ha
    rw [hk.1, hk.2] at w3 w4
    refine ⟨?_, by simp [h0, w3]⟩
    have : stats_sum (process_data_aggregate records) hour light = a.count := by
      simp [stats_sum, h0]
    rw [this]
    rcases w4 with w4 | w4
    · exact w4
    · rw [w4]
      exact wrap_int_of_range _ hfit.1 hfit.2

/-- An instance of `aggregation_correct` on a sample input. -/
theorem aggregation_correct_witness :
    (∀ r ∈ spec_example, wf_string 10 r.traffic_light) ∧
    (INT_MIN ≤ bucket_sum spec_example (str "2024-01-01 08 05") (str "L1") ∧
      bucket_sum spec_example (str "2024-01-01 08 05") (str "L1") ≤ INT_MAX) ∧
    stats_sum (process_data_aggregate spec_example) (str "2024-01-01 08 05") (str "L1") =
      bucket_sum spec_example (str "2024-01-01 08 05") (str "L1") ∧
    (stats_of (process_data_aggregate spec_example) (str "2024-01-01 08 05") (str "L1") = [] ↔
      bucket spec_example (str "2024-01-01 08 05") (str "L1") = []) :=
  ⟨by decide, by decide,
    aggregation_correct spec_example (by decide) (str "2024-01-01 08 05") (str "L1")
      (by decide)⟩

/-- C4. Partition completeness: for `num_records >= 0` and `size - 1 >= 1` workers the dispatch
loop computes one pair (offset, count) per worker; the first offset is 0, every later offset is
the previous offset plus the previous count, every count is non-negative, the counts add up to
`num_records`, and every record index below `num_records` lies in exactly one slice. -/
theorem partition_complete (num_records size : Int) (hn : 0 ≤ num_records) (hs : 2 ≤ size) :
    (main_dispatch num_records size).length = (size - 1).toNat ∧
    (∀ p ∈ (main_dispatch num_records size).head?, p.1 = 0) ∧
    List.Chain' (fun p q : Int × Int => q.1 = p.1 + p.2) (main_dispatch num_records size) ∧
    (∀ p ∈ main_dispatch num_records size, 0 ≤ p.2) ∧
    ((main_dispatch num_records size).map (fun p : Int × Int => p.2)).sum = num_records ∧
    ∀ i, 0 ≤ i → i < num_records →
      ((main_dispatch num_records size).filter
        (fun p => decide (p.1 ≤ i ∧ i < p.1 + p.2))).length = 1 := by
  obtain ⟨h1, h2⟩ := dispatch_facts num_records size hn hs
  refine ⟨dispatch_loop_length _ _ _ _ _, dispatch_loop_head _ _ _ _ _,
    dispatch_loop_chain _ _ _ _ _, dispatch_loop_count_nonneg _ _ h1 _ _ _, h2, ?_⟩
  intro i hi0 hi
  have := (dispatch_loop_cover (Int.tdiv num_records (size - 1))
    (Int.tmod num_records (size - 1)) h1 (size - 1).toNat 1 0 i).2 hi0
  unfold main_dispatch at h2 ⊢
  rw [h2] at this
  exact this (by omega)

/-- An instance of `partition_complete` on a sample input. -/
theorem partition_complete_witness :
    (0 : Int) ≤ 10 ∧ (2 : Int) ≤ 4 ∧
    (main_dispatch 10 4).length = ((4 : Int) - 1).toNat ∧
    (∀ p ∈ (main_dispatch 10 4).head?, p.1 = 0) ∧
    List.Chain' (fun p q : Int × Int => q.1 = p.1 + p.2) (main_dispatch 10 4) ∧
    (∀ p ∈ main_dispatch 10 4, 0 ≤ p.2) ∧
    ((main_dispatch 10 4).map (fun p : Int × Int => p.2)).sum = 10 ∧
    ∀ i, 0 ≤ i → i < 10 →
      ((main_dispatch 10 4).filter (fun p => decide (p.1 ≤ i ∧ i < p.1 + p.2))).length = 1 :=
  ⟨by decide, by decide, partition_complete 10 4 (by decide) (by decide)⟩

/-- C5. Local pruning does not change the global top-N: for aggregate lists with counts between
`0` and `INT_MAX`, the coordinator applied to the lists pruned one by one by the sort and sweep
of `process_data` yields the same sequence of pairs (hour, total_count) as the coordinator
applied to the unpruned lists. -/
theorem local_pruning_preserves_hour_counts
    (qsort : (HourlyStats → HourlyStats → Int) → List HourlyStats → List HourlyStats)
    (hq : qsort_contract qsort) (lists : List (List HourlyStats))
    (hwf : ∀ l ∈ lists, ∀ a ∈ l, wf_stats a) :
    (main_merge qsort (lists.map (process_data_top_n qsort))).map hour_count =
      (main_merge qsort lists).map hour_count := by
  rw [main_merge_eq, main_merge_eq]
  exact merge_pruned_hour_count qsort hq lists hwf

/-- An instance of `local_pruning_preserves_hour_counts` on a sample input. -/
theorem local_pruning_preserves_hour_counts_witness :
    qsort_contract qsort_ref ∧
    (∀ l ∈ [[tied "L1", tied "L2", tied "L3"], [tied "L4"]], ∀ a ∈ l, wf_stats a) ∧
    (main_merge qsort_ref
        ([[tied "L1", tied "L2", tied "L3"], [tied "L4"]].map
          (process_data_top_n qsort_ref))).map hour_count =
      (main_merge qsort_ref [[tied "L1", tied "L2", tied "L3"], [tied "L4"]]).map hour_count :=
  ⟨qsort_ref_contract, by decide,
    local_pruning_preserves_hour_counts qsort_ref qsort_ref_contract
      [[tied "L1", tied "L2", tied "L3"], [tied "L4"]] (by decide)⟩

theorem process_data_wf
    (records : List TrafficRecord) (hr : in_range records) :
    ∀ a ∈ process_data_aggregate records, wf_stats a :=
  fun a ha => (aggregate_wf_stats records hr a ha).1

theorem flatten_wf (lists : List (List HourlyStats))
    (hwf : ∀ l ∈ lists, ∀ a ∈ l, wf_stats a) : ∀ a ∈ lists.flatten, wf_stats a := by
  intro a ha
  obtain ⟨l, hl, hal⟩ := List.mem_flatten.1 ha
  exact hwf l hl a hal

/-- C6. Top-N bound: whenever `compare_stats` is consistent on the array handed to `qsort` (the
requirement of `qsort`; it is met when the counts of the array lie between `0` and `INT_MAX`),
the sort and sweep of `process_data` leave at most `TOP_N` entries for any hour key.  So the
result of `process_data` has at most `TOP_N` entries for any hour key, for every record sequence
with a consistent comparison on `temp_stats`; and so has `final_results` of the coordinator,
whatever worker lists it concatenates. -/
theorem top_n_bound
    (qsort : (HourlyStats → HourlyStats → Int) → List HourlyStats → List HourlyStats)
    (hq : qsort_contract qsort)
    (stats : List HourlyStats) (hst : ∀ a ∈ stats, wf_string 20 a.hour)
    (hcs : cmp_consistent compare_stats stats)
    (records : List TrafficRecord)
    (hcr : cmp_consistent compare_stats (process_data_aggregate records))
    (lists : List (List HourlyStats)) (hl : ∀ l ∈ lists, ∀ a ∈ l, wf_string 20 a.hour)
    (hcl : cmp_consistent compare_stats lists.flatten)
    (hour : List Nat) :
    (of_hour hour (process_data_top_n qsort stats)).length ≤ TOP_N ∧
    (of_hour hour (process_data qsort records)).length ≤ TOP_N ∧
    (of_hour hour (main_merge qsort lists)).length ≤ TOP_N := by
  refine ⟨top_n_length_of_consistent qsort hq _ hst hcs hour, ?_, ?_⟩
  · exact top_n_length_of_consistent qsort hq _ (aggregate_hour_wf records) hcr hour
  · rw [main_merge_eq]
    refine top_n_length_of_consistent qsort hq _ ?_ hcl hour
    intro a ha
    obtain ⟨l, hl', hal⟩ := List.mem_flatten.1 ha
    exact hl l hl' a hal

/-- An instance of `top_n_bound` on a sample input. -/
theorem top_n_bound_witness :
    qsort_contract qsort_ref ∧
    (∀ a ∈ [tied "L1", tied "L2", tied "L3"], wf_string 20 a.hour) ∧
    cmp_consistent compare_stats [tied "L1", tied "L2", tied "L3"] ∧
    cmp_consistent compare_stats (process_data_aggregate spec_example) ∧
    (∀ l ∈ [[tied "L1", tied "L2", tied "L3"], [tied "L4"]], ∀ a ∈ l, wf_string 20 a.hour) ∧
    cmp_consistent compare_stats
      [[tied "L1", tied "L2", tied "L3"], [tied "L4"]].flatten ∧
    (of_hour (str "2024-01-01 08 05")
      (process_data_top_n qsort_ref [tied "L1", tied "L2", tied "L3"])).length ≤ TOP_N ∧
    (of_hour (str "2024-01-01 08 05") (process_data qsort_ref spec_example)).length ≤ TOP_N ∧
    (of_hour (str "2024-01-01 08 05")
      (main_merge qsort_ref [[tied "L1", tied "L2", tied "L3"], [tied "L4"]])).length ≤ TOP_N :=
  ⟨qsort_ref_contract, by decide, compare_stats_consistent _ (by decide),
    compare_stats_consistent _ (by decide), by decide, compare_stats_consistent _ (by decide),
    top_n_bound qsort_ref qsort_ref_contract [tied "L1", tied "L2", tied "L3"] (by decide)
      (compare_stats_consistent _ (by decide)) spec_example
      (compare_stats_consistent _ (by decide))
      [[tied "L1", tied "L2", tied "L3"], [tied "L4"]] (by decide)
      (compare_stats_consistent _ (by decide)) (str "2024-01-01 08 05")⟩

/-- C7. Top-N selection: for aggregates with counts between `0` and `INT_MAX`, the sort and
sweep of `process_data` divide the given entries into the kept ones (the result) and the skipped
ones, and every kept entry has a count greater than or equal to the count of every skipped entry
of the same hour. -/
theorem top_n_selection
    (qsort : (HourlyStats → HourlyStats → Int) → List HourlyStats → List HourlyStats)
    (hq : qsort_contract qsort) (stats : List HourlyStats) (hwf : ∀ a ∈ stats, wf_stats a) :
    ∃ skipped, (process_data_top_n qsort stats ++ skipped).Perm stats ∧
      ∀ a ∈ process_data_top_n qsort stats, ∀ b ∈ skipped,
        a.hour = b.hour → b.count ≤ a.count := by
  obtain ⟨hp, hw, hs, hsh⟩ := sorted_facts qsort hq stats hwf
  obtain ⟨skipped, hperm, hdrop⟩ := sweep_skipped [] 0 (qsort compare_stats stats)
    (fun a ha => (hw a ha).1) hsh (fun _ _ => strcmp_nil_le _)
  rw [← top_n_eq_sweep qsort hq stats] at hperm
  refine ⟨skipped, hperm.trans hp, ?_⟩
  intro a ha b hb hab
  have ha' : a ∈ (of_hour a.hour (qsort compare_stats stats)).take TOP_N := by
    rw [← top_n_of_hour qsort hq stats hwf]
    unfold of_hour
    exact List.mem_filter.2 ⟨ha, by simp⟩
  have hb' : b ∈ (of_hour a.hour (qsort compare_stats stats)).drop TOP_N := by
    have := hdrop a.hour
    have e : (if a.hour = [] then TOP_N - 0 else TOP_N) = TOP_N := by split_ifs <;> rfl
    rw [e] at this
    rw [← this]
    unfold of_hour
    exact List.mem_filter.2 ⟨hb, by simp [hab]⟩
  have hsorted : (of_hour a.hour (qsort compare_stats stats)).Sorted
      (fun x y => y.count ≤ x.count) := by
    have := of_hour_sorted_counts a.hour _ hw hs
    unfold counts_of_hour at this
    rwa [List.Sorted, List.pairwise_map] at this
  exact hsorted.rel_of_mem_take_of_mem_drop ha' hb'

/-- An instance of `top_n_selection` on a sample input. -/
theorem top_n_selection_witness :
    qsort_contract qsort_ref ∧
    (∀ a ∈ [tied "L1", tied "L2", tied "L3"], wf_stats a) ∧
    ∃ skipped, (process_data_top_n qsort_ref [tied "L1", tied "L2", tied "L3"] ++ skipped).Perm
        [tied "L1", tied "L2", tied "L3"] ∧
      ∀ a ∈ process_data_top_n qsort_ref [tied "L1", tied "L2", tied "L3"], ∀ b ∈ skipped,
        a.hour = b.hour → b.count ≤ a.count :=
  ⟨qsort_ref_contract, by decide,
    top_n_selection qsort_ref qsort_ref_contract [tied "L1", tied "L2", tied "L3"] (by decide)⟩

theorem hour_blocks_of_pairwise (l : List HourlyStats) (hl : l.Pairwise report_order) :
    hour_blocks l := by
  intro pre a mid b post e hab c hc
  rw [e, List.pairwise_append] at hl
  obtain ⟨h1, h2⟩ := List.pairwise_cons.1 hl.2.1
  have hac : report_order a c := h1 c (by simp [hc])
  have hcb : report_order c b := (List.pairwise_append.1 h2).2.2 c hc b (by simp)
  rcases hac with hac | ⟨hac, _⟩
  · rcases hcb with hcb | ⟨hcb, _⟩
    · rw [← hab] at hcb
      have := strcmp_swap a.hour c.hour
      omega
    · rw [hcb, ← hab, strcmp_self] at hac
      exact absurd hac (lt_irrefl _)
  · exact hac.symm

theorem top_n_report_order
    (qsort : (HourlyStats → HourlyStats → Int) → List HourlyStats → List HourlyStats)
    (hq : qsort_contract qsort) (xs : List HourlyStats) (hx : ∀ a ∈ xs, wf_stats a) :
    (process_data_top_n qsort xs).Pairwise report_order ∧
      hour_blocks (process_data_top_n qsort xs) := by
  have hp : (process_data_top_n qsort xs).Pairwise report_order := by
    refine List.Pairwise.imp_of_mem ?_ (top_n_sorted qsort hq xs hx)
    intro a b ha hb hab
    rwa [compare_stats_le_iff a b (hx a (top_n_mem qsort hq xs hx a ha)).2.2
      (hx b (top_n_mem qsort hq xs hx b hb)).2.2] at hab
  exact ⟨hp, hour_blocks_of_pairwise _ hp⟩

/-- C8. Output order: in the list that the sort and sweep of `process_data` produce from
aggregates with counts between `0` and `INT_MAX`, an entry that comes before another one either
has a strictly smaller hour key (`strcmp`) or has the same hour key and a count that is not
smaller, and every hour key occupies one contiguous block; so the blocks are in strictly
ascending order of the hour key and the counts inside a block do not increase.  The same holds
for the result of `process_data` on records in range and for `final_results` of the coordinator
on worker lists of such aggregates. -/
theorem output_order
    (qsort : (HourlyStats → HourlyStats → Int) → List HourlyStats → List HourlyStats)
    (hq : qsort_contract qsort) (stats : List HourlyStats) (hst : ∀ a ∈ stats, wf_stats a)
    (records : List TrafficRecord) (hr : in_range records)
    (lists : List (List HourlyStats)) (hwf : ∀ l ∈ lists, ∀ a ∈ l, wf_stats a) :
    ((process_data_top_n qsort stats).Pairwise report_order ∧
      hour_blocks (process_data_top_n qsort stats)) ∧
    ((process_data qsort records).Pairwise report_order ∧
      hour_blocks (process_data qsort records)) ∧
    ((main_merge qsort lists).Pairwise report_order ∧
      hour_blocks (main_merge qsort lists)) := by
  refine ⟨top_n_report_order qsort hq _ hst, ?_, ?_⟩
  · exact top_n_report_order qsort hq _ (process_data_wf records hr)
  · rw [main_merge_eq]
    exact top_n_report_order qsort hq _ (flatten_wf lists hwf)

/-- An instance of `output_order` on a sample input. -/
theorem output_order_witness :
    qsort_contract qsort_ref ∧
    (∀ a ∈ [tied "L1", tied "L2", tied "L3"], wf_stats a) ∧ in_range spec_example ∧
    (∀ l ∈ [[tied "L1", tied "L2", tied "L3"], [tied "L4"]], ∀ a ∈ l, wf_stats a) ∧
    ((process_data_top_n qsort_ref [tied "L1", tied "L2", tied "L3"]).Pairwise report_order ∧
      hour_blocks (process_data_top_n qsort_ref [tied "L1", tied "L2", tied "L3"])) ∧
    ((process_data qsort_ref spec_example).Pairwise report_order ∧
      hour_blocks (process_data qsort_ref spec_example)) ∧
    ((main_merge qsort_ref [[tied "L1", tied "L2", tied "L3"], [tied "L4"]]).Pairwise
        report_order ∧
      hour_blocks (main_merge qsort_ref [[tied "L1", tied "L2", tied "L3"], [tied "L4"]])) :=
  ⟨qsort_ref_contract, by decide, by decide, by decide,
    output_order qsort_ref qsort_ref_contract [tied "L1", tied "L2", tied "L3"] (by decide)
      spec_example (by decide) [[tied "L1", tied "L2", tied "L3"], [tied "L4"]] (by decide)⟩

/-- C9 (counterexample). Three workers return one aggregate each, all of the same hour
and count: received in the order L1, L2, L3 the report keeps L1 and L2, received in the order
L3, L2, L1 it keeps L3 and L2. -/
theorem arrival_order_changes_report :
    qsort_contract qsort_ref ∧
    [[tied "L3"], [tied "L2"], [tied "L1"]].Perm [[tied "L1"], [tied "L2"], [tied "L3"]] ∧
    main_merge qsort_ref [[tied "L1"], [tied "L2"], [tied "L3"]] = [tied "L1", tied "L2"] ∧
    main_merge qsort_ref [[tied "L3"], [tied "L2"], [tied "L1"]] = [tied "L3", tied "L2"] ∧
    [tied "L1", tied "L2"] ≠ [tied "L3", tied "L2"] :=
  ⟨qsort_ref_contract, by decide, by decide, by decide, by decide⟩

theorem top_n_hour_count_perm
    (qsort : (HourlyStats → HourlyStats → Int) → List HourlyStats → List HourlyStats)
    (hq : qsort_contract qsort) (xs ys : List HourlyStats) (hp : xs.Perm ys)
    (hy : ∀ a ∈ ys, wf_stats a) :
    (process_data_top_n qsort xs).map hour_count =
      (process_data_top_n qsort ys).map hour_count := by
  have hx : ∀ a ∈ xs, wf_stats a := fun a ha => hy a (hp.mem_iff.1 ha)
  apply hour_count_eq_of_counts
  · exact fun a ha => hx a (top_n_mem qsort hq _ hx a ha)
  · exact fun a ha => hy a (top_n_mem qsort hq _ hy a ha)
  · exact top_n_sorted qsort hq _ hx
  · exact top_n_sorted qsort hq _ hy
  · intro h
    rw [counts_top_n qsort hq _ hx, counts_top_n qsort hq _ hy]
    apply top_counts_perm
    unfold counts_of_hour of_hour
    exact (hp.filter _).map _

/-- C9 (amended). Arrival-order independence up to ties: for worker result lists of aggregates
with counts between `0` and `INT_MAX` and every permutation of the order in which the lists are
concatenated, the coordinator's sort and sweep produce reports with the same sequence of pairs
(hour, total_count); the reports are identical when no two different entries of the lists have
the same hour and the same count. -/
theorem arrival_order_hour_counts
    (qsort : (HourlyStats → HourlyStats → Int) → List HourlyStats → List HourlyStats)
    (hq : qsort_contract qsort) (lists permuted : List (List HourlyStats))
    (hp : permuted.Perm lists) (hwf : ∀ l ∈ lists, ∀ a ∈ l, wf_stats a) :
    (main_merge qsort permuted).map hour_count = (main_merge qsort lists).map hour_count ∧
    (tie_free lists.flatten → main_merge qsort permuted = main_merge qsort lists) := by
  rw [main_merge_eq, main_merge_eq]
  have hw := flatten_wf lists hwf
  have hw' : ∀ a ∈ permuted.flatten, wf_stats a := fun a ha => hw a (hp.flatten.mem_iff.1 ha)
  have hkey := top_n_hour_count_perm qsort hq _ _ hp.flatten hw
  refine ⟨hkey, fun htf => map_injOn_eq hour_count _ _ ?_ hkey⟩
  intro a ha b hb hab
  simp only [hour_count, Prod.mk.injEq] at hab
  exact htf a (hp.flatten.mem_iff.1 (top_n_mem qsort hq _ hw' a ha)) b
    (top_n_mem qsort hq _ hw b hb) hab.1 hab.2

/-- An instance of `arrival_order_hour_counts` on a sample input. -/
theorem arrival_order_hour_counts_witness :
    qsort_contract qsort_ref ∧
    [[busy "L3" 7], [busy "L2" 20], [busy "L1" 10]].Perm
      [[busy "L1" 10], [busy "L2" 20], [busy "L3" 7]] ∧
    (∀ l ∈ [[busy "L1" 10], [busy "L2" 20], [busy "L3" 7]], ∀ a ∈ l, wf_stats a) ∧
    tie_free [[busy "L1" 10], [busy "L2" 20], [busy "L3" 7]].flatten ∧
    (main_merge qsort_ref [[busy "L3" 7], [busy "L2" 20], [busy "L1" 10]]).map hour_count =
      (main_merge qsort_ref [[busy "L1" 10], [busy "L2" 20], [busy "L3" 7]]).map hour_count ∧
    main_merge qsort_ref [[busy "L3" 7], [busy "L2" 20], [busy "L1" 10]] =
      main_merge qsort_ref [[busy "L1" 10], [busy "L2" 20], [busy "L3" 7]] :=
  ⟨qsort_ref_contract, by decide, by decide, by decide,
    (arrival_order_hour_counts qsort_ref qsort_ref_contract
      [[busy "L1" 10], [busy "L2" 20], [busy "L3" 7]]
      [[busy "L3" 7], [busy "L2" 20], [busy "L1" 10]] (by decide) (by decide)).1,
    (arrival_order_hour_counts qsort_ref qsort_ref_contract
      [[busy "L1" 10], [busy "L2" 20], [busy "L3" 7]]
      [[busy "L3" 7], [busy "L2" 20], [busy "L1" 10]] (by decide) (by decide)).2 (by decide)⟩

/-- C10. Aggregate uniqueness: after the aggregation loop of a `process_data` call on records
with properly terminated traffic-light fields, no two entries of `temp_stats` have the same hour
key and the same traffic light; consequently no two entries of the pruned result of that call
have, whenever `compare_stats` is consistent on `temp_stats`, as `qsort` requires. -/
theorem aggregate_unique (records : List TrafficRecord)
    (hwf : ∀ r ∈ records, wf_string 10 r.traffic_light) :
    (process_data_aggregate records).Pairwise
      (fun a b => ¬(a.hour = b.hour ∧ a.traffic_light = b.traffic_light)) ∧
    ∀ qsort, qsort_contract qsort →
      cmp_consistent compare_stats (process_data_aggregate records) →
      (process_data qsort records).Pairwise
        (fun a b => ¬(a.hour = b.hour ∧ a.traffic_light = b.traffic_light)) := by
  have hn := (aggregate_invariant records hwf).1
  have conv : ∀ l : List HourlyStats, (l.map (fun a => (a.hour, a.traffic_light))).Nodup →
      l.Pairwise (fun a b => ¬(a.hour = b.hour ∧ a.traffic_light = b.traffic_light)) := by
    intro l hl
    rw [List.Nodup, List.pairwise_map] at hl
    refine hl.imp ?_
    intro a b hab e
    exact hab (by rw [e.1, e.2])
  refine ⟨conv _ hn, ?_⟩
  intro qsort hq hc
  apply conv
  have hsub := (top_n_sublist qsort hq (process_data_aggregate records)).map
    (fun a => (a.hour, a.traffic_light))
  have hperm := ((hq compare_stats _ hc).1.map (fun a => (a.hour, a.traffic_light)))
  exact (hperm.nodup_iff.2 hn).sublist hsub

/-- An instance of `aggregate_unique` on a sample input. -/
theorem aggregate_unique_witness :
    (∀ r ∈ spec_example, wf_string 10 r.traffic_light) ∧
    qsort_contract qsort_ref ∧
    cmp_consistent compare_stats (process_data_aggregate spec_example) ∧
    (process_data_aggregate spec_example).Pairwise
      (fun a b => ¬(a.hour = b.hour ∧ a.traffic_light = b.traffic_light)) ∧
    (process_data qsort_ref spec_example).Pairwise
      (fun a b => ¬(a.hour = b.hour ∧ a.traffic_light = b.traffic_light)) :=
  ⟨by decide, qsort_ref_contract, compare_stats_consistent _ (by decide),
    (aggregate_unique spec_example (by decide)).1,
    (aggregate_unique spec_example (by decide)).2 qsort_ref qsort_ref_contract
      (compare_stats_consistent _ (by decide))⟩

theorem dispatch_loop_counts (rps rem : Int) (n : Nat) (dest offset : Int) :
    (main_dispatch_loop rps rem n dest offset).map (fun p : Int × Int => p.2) =
      (List.range n).map (fun k : Nat => rps + if dest + (k : Int) ≤ rem then 1 else 0) := by
  induction n generalizing dest offset with
  | zero => simp [main_dispatch_loop]
  | succ n ih =>
    rw [List.range_succ_eq_map]
    simp only [main_dispatch_loop, List.map_cons, List.map_map, ih]
    congr 1
    · simp
    · apply List.map_congr_left
      intro k _
      simp only [Function.comp, Nat.succ_eq_add_one, Nat.cast_add, Nat.cast_one]
      have e : dest + 1 + (k : Int) = dest + ((k : Int) + 1) := by ring
      rw [e]

theorem dispatch_counts (num_records size : Int) :
    (main_dispatch num_records size).map (fun p : Int × Int => p.2) =
      (List.range (size - 1).toNat).map (fun k : Nat =>
        if (k : Int) + 1 ≤ Int.tmod num_records (size - 1)
        then Int.tdiv num_records (size - 1) + 1 else Int.tdiv num_records (size - 1)) := by
  unfold main_dispatch
  rw [dispatch_loop_counts]
  apply List.map_congr_left
  intro k _
  have e : (1 : Int) + (k : Int) = (k : Int) + 1 := by ring
  rw [e]
  split_ifs <;> simp

/-- C11. Partition evenness: with `base = num_records / (size - 1)` and
`remainder = num_records % (size - 1)`, the worker with 1-based index `k + 1` receives `base + 1`
records when `k + 1 <= remainder` and `base` records otherwise; so two slice lengths differ by at
most 1, the lengths do not increase in worker order, and when there are fewer records than
workers the first `num_records` workers receive one record and all the others none. -/
theorem partition_even (num_records size : Int) (hn : 0 ≤ num_records) (hs : 2 ≤ size) :
    (main_dispatch num_records size).map (fun p : Int × Int => p.2) =
      (List.range (size - 1).toNat).map (fun k : Nat =>
        if (k : Int) + 1 ≤ Int.tmod num_records (size - 1)
        then Int.tdiv num_records (size - 1) + 1 else Int.tdiv num_records (size - 1)) ∧
    (∀ p ∈ main_dispatch num_records size, ∀ q ∈ main_dispatch num_records size,
      p.2 - q.2 ≤ 1) ∧
    (main_dispatch num_records size).Pairwise (fun p q => q.2 ≤ p.2) ∧
    (num_records < size - 1 → ∀ k : Nat, (k : Int) < size - 1 →
      ((main_dispatch num_records size).map (fun p : Int × Int => p.2))[k]? =
        some (if (k : Int) < num_records then 1 else 0)) := by
  have hc := dispatch_counts num_records size
  have hmem : ∀ p ∈ main_dispatch num_records size,
      p.2 = Int.tdiv num_records (size - 1) ∨ p.2 = Int.tdiv num_records (size - 1) + 1 := by
    intro p hp
    have : p.2 ∈ (main_dispatch num_records size).map (fun p : Int × Int => p.2) :=
      List.mem_map.2 ⟨p, hp, rfl⟩
    rw [hc] at this
    obtain ⟨k, _, hk⟩ := List.mem_map.1 this
    rw [← hk]
    split_ifs
    · right; rfl
    · left; rfl
  refine ⟨hc, ?_, ?_, ?_⟩
  · intro p hp q hq
    rcases hmem p hp with h1 | h1 <;> rcases hmem q hq with h2 | h2 <;> omega
  · rw [← List.pairwise_map (f := fun p : Int × Int => p.2) (R := fun a b => b ≤ a), hc,
      List.pairwise_map]
    refine (List.pairwise_lt_range _).imp ?_
    intro a b hab
    have : (a : Int) < (b : Int) := by exact_mod_cast hab
    split_ifs <;> omega
  · intro hlt k hk
    have hk' : k < (size - 1).toNat := by omega
    rw [hc, List.getElem?_map, List.getElem?_range hk']
    have hd : Int.tdiv num_records (size - 1) = 0 := Int.tdiv_eq_zero_of_lt hn hlt
    have hm : Int.tmod num_records (size - 1) = num_records := Int.tmod_eq_of_lt hn hlt
    simp only [Option.map_some', hd, hm]
    congr 1

/-- An instance of `partition_even` on a sample input. -/
theorem partition_even_witness :
    (0 : Int) ≤ 2 ∧ (2 : Int) ≤ 5 ∧
    (main_dispatch 2 5).map (fun p : Int × Int => p.2) =
      (List.range ((5 : Int) - 1).toNat).map (fun k : Nat =>
        if (k : Int) + 1 ≤ Int.tmod 2 (5 - 1)
        then Int.tdiv 2 (5 - 1) + 1 else Int.tdiv 2 (5 - 1)) ∧
    (∀ p ∈ main_dispatch 2 5, ∀ q ∈ main_dispatch 2 5, p.2 - q.2 ≤ 1) ∧
    (main_dispatch 2 5).Pairwise (fun p q => q.2 ≤ p.2) ∧
    ((2 : Int) < 5 - 1 → ∀ k : Nat, (k : Int) < 5 - 1 →
      ((main_dispatch 2 5).map (fun p : Int × Int => p.2))[k]? =
        some (if (k : Int) < 2 then 1 else 0)) :=
  ⟨by decide, by decide, partition_even 2 5 (by decide) (by decide)⟩

/-! ## `strcmp` and the lexicographic order -/

/-- The result of `strcmp` is negative exactly when the first string is smaller in the
lexicographic order of byte lists. -/
theorem strcmp_neg_iff_lt (a b : List Nat) : strcmp a b < 0 ↔ a < b := by
  induction a generalizing b with
  | nil =>
    cases b with
    | nil =>
      simp only [strcmp, lt_self_iff_false]
    | cons y ys =>
      simp only [strcmp]
      exact ⟨fun _ => List.Lex.nil, fun _ => by decide⟩
  | cons x xs ih =>
    cases b with
    | nil =>
      simp only [strcmp]
      constructor
      · intro h; exact absurd h (by decide)
      · intro h; cases h
    | cons y ys =>
      simp only [strcmp]
      split_ifs with h1 h2
      · exact ⟨fun _ => List.Lex.rel h1, fun _ => by decide⟩
      · constructor
        · intro h; exact absurd h (by decide)
        · intro h
          cases h with
          | cons h => exact absurd h2 (lt_irrefl _)
          | rel h => exact absurd h h1
      · have e : x = y := by omega
        subst e
        rw [ih ys]
        constructor
        · intro h; exact List.Lex.cons h
        · intro h
          cases h with
          | cons h => exact h
          | rel h => exact absurd h h1

/-! ## Further properties of the specification -/

theorem compare_stats_eq_zero_iff (a b : HourlyStats)
    (ha : 0 ≤ a.count ∧ a.count ≤ INT_MAX) (hb : 0 ≤ b.count ∧ b.count ≤ INT_MAX) :
    compare_stats a b = 0 ↔ a.hour = b.hour ∧ a.count = b.count := by
  rw [compare_stats_eq a b ha hb]
  have hz := strcmp_eq_zero a.hour b.hour
  split_ifs with h
  · constructor
    · intro h'; exact absurd h' h
    · rintro ⟨h', _⟩; exact absurd (hz.2 h') h
  · have h0 : strcmp a.hour b.hour = 0 := by simpa using h
    constructor
    · intro h'; exact ⟨hz.1 h0, by omega⟩
    · rintro ⟨_, h'⟩; omega

/-- C16. Comparator correctness: for aggregates `a` and `b` with counts between `0` and
`INT_MAX`, `compare_stats(a, b)` is negative exactly when the hour of `a` is lexicographically
smaller than the hour of `b`, or the hours are equal and the count of `a` is larger; it is zero
exactly when hours and counts are equal; `compare_stats(b, a)` has the opposite sign; and
"not after" is transitive: the comparison is a total preorder by hour ascending and count
descending. -/
theorem comparator_correct (a b : HourlyStats)
    (ha : 0 ≤ a.count ∧ a.count ≤ INT_MAX) (hb : 0 ≤ b.count ∧ b.count ≤ INT_MAX) :
    (compare_stats a b < 0 ↔ a.hour < b.hour ∨ (a.hour = b.hour ∧ b.count < a.count)) ∧
    (compare_stats a b = 0 ↔ a.hour = b.hour ∧ a.count = b.count) ∧
    (0 < compare_stats b a ↔ compare_stats a b < 0) ∧
    (compare_stats b a = 0 ↔ compare_stats a b = 0) ∧
    (compare_stats b a < 0 ↔ 0 < compare_stats a b) ∧
    (∀ c : HourlyStats, 0 ≤ c.count ∧ c.count ≤ INT_MAX →
      compare_stats a b ≤ 0 → compare_stats b c ≤ 0 → compare_stats a c ≤ 0) := by
  have hcons := compare_stats_consistent [a, b] (by
    intro x hx
    rcases List.mem_cons.1 hx with rfl | hx
    · exact ha
    · rw [List.mem_singleton] at hx; rw [hx]; exact hb)
  have h1 := hcons.1 a (by simp) b (by simp)
  have h2 := hcons.1 b (by simp) a (by simp)
  refine ⟨?_, compare_stats_eq_zero_iff a b ha hb, h1.symm, ?_, h2, ?_⟩
  · rw [compare_stats_lt_iff a b ha hb, strcmp_neg_iff_lt]
  · constructor <;> intro h <;> omega
  · intro c hc hab hbc
    have hcons3 := compare_stats_consistent [a, b, c] (by
      intro x hx
      simp only [List.mem_cons, List.mem_singleton, List.not_mem_nil, or_false] at hx
      rcases hx with rfl | rfl | rfl
      · exact ha
      · exact hb
      · exact hc)
    exact hcons3.2 a (by simp) b (by simp) c (by simp) hab hbc

/-- An instance of `comparator_correct` on a sample input. -/
theorem comparator_correct_witness :
    (0 ≤ (busy "L1" 10).count ∧ (busy "L1" 10).count ≤ INT_MAX) ∧
    (0 ≤ (busy "L2" 20).count ∧ (busy "L2" 20).count ≤ INT_MAX) ∧
    (compare_stats (busy "L1" 10) (busy "L2" 20) < 0 ↔
      (busy "L1" 10).hour < (busy "L2" 20).hour ∨
        ((busy "L1" 10).hour = (busy "L2" 20).hour ∧
          (busy "L2" 20).count < (busy "L1" 10).count)) ∧
    (0 < compare_stats (busy "L1" 10) (busy "L2" 20)) :=
  ⟨by decide, by decide,
    (comparator_correct (busy "L1" 10) (busy "L2" 20) (by decide) (by decide)).1, by decide⟩

/-- C17. Same algorithm at both call sites: on every list of aggregates the global reduction of
the coordinator (`qsort` with `compare_stats`, then the sweep with `current_hour` and
`count_in_hour`) returns the list that the sort and sweep of `process_data` return, with the same
`TOP_N`; the coordinator applies it to the concatenation of the worker lists in rank order; and
on the empty list both return the empty list. -/
theorem same_algorithm
    (qsort : (HourlyStats → HourlyStats → Int) → List HourlyStats → List HourlyStats)
    (all_results : List HourlyStats) (worker_results : List (List HourlyStats)) :
    main_reduce qsort all_results = process_data_top_n qsort all_results ∧
    main_merge qsort worker_results = process_data_top_n qsort worker_results.flatten ∧
    main_reduce qsort [] = [] ∧ process_data_top_n qsort [] = [] :=
  ⟨main_reduce_eq_top_n qsort all_results, main_merge_eq qsort worker_results, rfl, rfl⟩

/-- C18. Conditional distribution equivalence: for records in range (non-negative counts, bucket
sums that fit in `int`) and `W >= 1` workers, when no bucket (hour key, light) has records in two
slices of the partition, the final report of the program has the same sequence of pairs
(hour, total_count) as `process_data` applied to all records, and is the same report when no two
buckets of one hour have equal totals.  There is a final report when the record sequence is not
empty or `W = 1`, the C library returning a non-null pointer for `malloc(0)`; on the empty
sequence with more workers a run can end in the receive loop (`main_glibc_empty`), and then
there is no final report to compare. -/
theorem conditional_distribution_equivalence (libc : Libc)
    (qsort : (HourlyStats → HourlyStats → Int) → List HourlyStats → List HourlyStats)
    (hq : qsort_contract qsort) (W : Nat) (hW : 1 ≤ W) (records : List TrafficRecord)
    (hr : in_range records) (hd : split_free (main_slices records ((W : Int) + 1))) :
    (∀ report, main libc qsort ((W : Int) + 1) records = some report →
      report.map hour_count = (process_data qsort records).map hour_count ∧
      (tie_free (process_data_aggregate records) → report = process_data qsort records)) ∧
    (libc.malloc_zero = true → (records ≠ [] ∨ W = 1) →
      ∃ report, main libc qsort ((W : Int) + 1) records = some report) :=
  ⟨fun report h => pipeline_of_split_free qsort hq ((W : Int) + 1) (by omega) records hr hd report
      (main_some libc qsort ((W : Int) + 1) records report h).2.2,
    fun hm hne => main_runs libc hm qsort hq ((W : Int) + 1) (by omega) records hr
      (hne.imp id (fun h => by omega))⟩

/-- An instance of `conditional_distribution_equivalence` on a sample input. -/
theorem conditional_distribution_equivalence_witness :
    qsort_contract qsort_ref ∧ 1 ≤ 3 ∧ in_range spec_example ∧
    split_free (main_slices spec_example (((3 : Nat) : Int) + 1)) ∧
    tie_free (process_data_aggregate spec_example) ∧
    glibc.malloc_zero = true ∧ spec_example ≠ [] ∧
    ∃ report, main glibc qsort_ref (((3 : Nat) : Int) + 1) spec_example = some report ∧
      report.map hour_count = (process_data qsort_ref spec_example).map hour_count ∧
      report = process_data qsort_ref spec_example :=
  ⟨qsort_ref_contract, by decide, by decide, by decide, by decide, rfl, by decide,
    ((conditional_distribution_equivalence glibc qsort_ref qsort_ref_contract 3 (by decide)
      spec_example (by decide) (by decide)).2 rfl (Or.inl (by decide))).imp
      (fun report h =>
        ⟨h, ((conditional_distribution_equivalence glibc qsort_ref qsort_ref_contract 3
            (by decide) spec_example (by decide) (by decide)).1 report h).1,
          ((conditional_distribution_equivalence glibc qsort_ref qsort_ref_contract 3
            (by decide) spec_example (by decide) (by decide)).1 report h).2 (by decide)⟩)⟩

/-- C19. Top-N completeness: whenever `compare_stats` is consistent on the list handed to
`qsort`, for every hour key the sort and sweep of `process_data` keep the first `TOP_N` entries
of that hour in the sorted order, which are `min(TOP_N, k)` entries when the hour occurs `k`
times in the list; every hour of the list occurs in the result, and the result is a part of the
list (every entry of the result is an entry of the list, not more often than there). -/
theorem top_n_complete
    (qsort : (HourlyStats → HourlyStats → Int) → List HourlyStats → List HourlyStats)
    (hq : qsort_contract qsort) (stats : List HourlyStats)
    (hwf : ∀ a ∈ stats, wf_string 20 a.hour) (hc : cmp_consistent compare_stats stats)
    (hour : List Nat) :
    of_hour hour (process_data_top_n qsort stats) =
      (of_hour hour (qsort compare_stats stats)).take TOP_N ∧
    (of_hour hour (process_data_top_n qsort stats)).length =
      min TOP_N (of_hour hour stats).length ∧
    (∀ a ∈ stats, ∃ b ∈ process_data_top_n qsort stats, b.hour = a.hour) ∧
    (process_data_top_n qsort stats).Subperm stats := by
  have hlen : ∀ h, (of_hour h (process_data_top_n qsort stats)).length =
      min TOP_N (of_hour h stats).length := by
    intro h
    obtain ⟨hp, he⟩ := top_n_of_hour_of_consistent qsort hq stats hwf hc h
    rw [he, List.length_take]
    unfold of_hour
    rw [(hp.filter _).length_eq]
  refine ⟨(top_n_of_hour_of_consistent qsort hq stats hwf hc hour).2, hlen hour, ?_, ?_⟩
  · intro a ha
    have hk : 0 < (of_hour a.hour stats).length := by
      apply List.length_pos_of_mem (a := a)
      unfold of_hour
      exact List.mem_filter.2 ⟨ha, by simp⟩
    have hpos : 0 < (of_hour a.hour (process_data_top_n qsort stats)).length := by
      rw [hlen a.hour]
      simp only [TOP_N]
      omega
    obtain ⟨b, hb⟩ := List.exists_mem_of_length_pos hpos
    unfold of_hour at hb
    have hb' := List.mem_filter.1 hb
    exact ⟨b, hb'.1, by simpa using hb'.2⟩
  · exact (top_n_sublist qsort hq stats).subperm.trans (hq compare_stats stats hc).1.subperm

/-- An instance of `top_n_complete` on a sample input. -/
theorem top_n_complete_witness :
    qsort_contract qsort_ref ∧
    (∀ a ∈ [tied "L1", tied "L2", tied "L3"], wf_string 20 a.hour) ∧
    cmp_consistent compare_stats [tied "L1", tied "L2", tied "L3"] ∧
    of_hour (str "2024-01-01 08 05")
        (process_data_top_n qsort_ref [tied "L1", tied "L2", tied "L3"]) =
      (of_hour (str "2024-01-01 08 05")
        (qsort_ref compare_stats [tied "L1", tied "L2", tied "L3"])).take TOP_N ∧
    (of_hour (str "2024-01-01 08 05")
        (process_data_top_n qsort_ref [tied "L1", tied "L2", tied "L3"])).length =
      min TOP_N (of_hour (str "2024-01-01 08 05") [tied "L1", tied "L2", tied "L3"]).length ∧
    (∀ a ∈ [tied "L1", tied "L2", tied "L3"],
      ∃ b ∈ process_data_top_n qsort_ref [tied "L1", tied "L2", tied "L3"], b.hour = a.hour) ∧
    (process_data_top_n qsort_ref [tied "L1", tied "L2", tied "L3"]).Subperm
      [tied "L1", tied "L2", tied "L3"] :=
  ⟨qsort_ref_contract, by decide, compare_stats_consistent _ (by decide),
    top_n_complete qsort_ref qsort_ref_contract [tied "L1", tied "L2", tied "L3"] (by decide)
      (compare_stats_consistent _ (by decide)) (str "2024-01-01 08 05")⟩

/-! ## Indices of the loops of `process_data` -/

theorem step_length_le (temp : List HourlyStats) (r : TrafficRecord) :
    (process_data_step temp r).length ≤ temp.length + 1 := by
  cases hsc : process_data_scan (extract_hour r.timestamp) r.traffic_light r.count temp with
  | none => rw [step_of_none _ _ hsc]; simp
  | some t =>
    obtain ⟨pre, s, post, e1, _, _, _, e5⟩ := scan_some _ _ _ _ _ hsc
    rw [step_of_some _ _ _ hsc, e5, e1]
    simp

theorem aggregate_length_le (rs : List TrafficRecord) :
    (process_data_aggregate rs).length ≤ rs.length := by
  induction rs using List.reverseRecOn with
  | nil => simp [process_data_aggregate]
  | append_singleton rs r ih =>
    rw [aggregate_snoc]
    have := step_length_le (process_data_aggregate rs) r
    simp only [List.length_append, List.length_singleton]
    omega

/-- The state of `temp_stats` after `i + 1` iterations of the aggregation loop is one iteration
on `records[i]` from the state after `i` iterations. -/
theorem aggregate_take_succ (rs : List TrafficRecord) (i : Nat) (hi : i < rs.length) :
    process_data_aggregate (rs.take (i + 1)) =
      process_data_step (process_data_aggregate (rs.take i)) (rs.get ⟨i, hi⟩) := by
  rw [List.take_succ, List.getElem?_eq_getElem hi]
  exact aggregate_snoc _ _

/-- The entries that the sweep has written after `i` iterations are the first entries of its
result. -/
theorem sweep_take_prefix (cur : List Nat) (cnt : Nat) (l : List HourlyStats) (i : Nat) :
    process_data_sweep cur cnt (l.take i) <+: process_data_sweep cur cnt l := by
  induction l generalizing cur cnt i with
  | nil => simp [process_data_sweep]
  | cons s rest ih =>
    cases i with
    | zero => simp [process_data_sweep]
    | succ i =>
      rw [List.take_succ_cons]
      by_cases hc : strcmp cur s.hour = 0
      · rw [sweep_cons_same cur cnt s _ hc, sweep_cons_same cur cnt s _ hc]
        split_ifs
        · exact (List.prefix_cons_inj s).2 (ih _ _ i)
        · exact ih _ _ i
      · rw [sweep_cons_changed cur cnt s _ hc, sweep_cons_changed cur cnt s _ hc]
        exact (List.prefix_cons_inj s).2 (ih _ _ i)

theorem sweep_length_le (cur : List Nat) (cnt : Nat) (l : List HourlyStats) :
    (process_data_sweep cur cnt l).length ≤ l.length :=
  (sweep_sublist cur cnt l).length_le

/-- C20. Buffer bounds in `process_data`, for a sorting routine that sorts in place (the array
keeps its length).  After `i` iterations of the aggregation loop (the state is the aggregation
of `records[0 .. i)`) `stats_count <= i <= num_records`, so the write to `temp_stats[stats_count]`
in iteration `i < num_records` is inside the buffer of `num_records` elements.  After `i`
iterations of the sweep (the entries written are the result of the sweep of the first `i` sorted
entries, a prefix of the result) `*num_results <= i <= stats_count`, so the write to
`(*results)[*num_results]` in iteration `i < stats_count` is inside the buffer of `stats_count`
elements.  At exit `*num_results <= stats_count <= num_records`. -/
theorem buffer_bounds
    (qsort : (HourlyStats → HourlyStats → Int) → List HourlyStats → List HourlyStats)
    (hlen : ∀ xs, (qsort compare_stats xs).length = xs.length)
    (records : List TrafficRecord) :
    (∀ i, i ≤ records.length → (process_data_aggregate (records.take i)).length ≤ i) ∧
    (∀ i, i < records.length →
      (process_data_aggregate (records.take i)).length < records.length) ∧
    (∀ i, i ≤ (process_data_aggregate records).length →
      (process_data_sweep [] 0
          ((qsort compare_stats (process_data_aggregate records)).take i)).length ≤ i ∧
      process_data_sweep [] 0 ((qsort compare_stats (process_data_aggregate records)).take i)
        <+: process_data_sweep [] 0 (qsort compare_stats (process_data_aggregate records))) ∧
    (∀ i, i < (process_data_aggregate records).length →
      (process_data_sweep [] 0
          ((qsort compare_stats (process_data_aggregate records)).take i)).length <
        (process_data_aggregate records).length) ∧
    (process_data qsort records).length ≤ (process_data_aggregate records).length ∧
    (process_data_aggregate records).length ≤ records.length := by
  have h1 : ∀ i, i ≤ records.length → (process_data_aggregate (records.take i)).length ≤ i := by
    intro i hi
    have := aggregate_length_le (records.take i)
    rw [List.length_take] at this
    omega
  have h3 : ∀ i, i ≤ (process_data_aggregate records).length →
      (process_data_sweep [] 0
          ((qsort compare_stats (process_data_aggregate records)).take i)).length ≤ i := by
    intro i hi
    have := sweep_length_le [] 0 ((qsort compare_stats (process_data_aggregate records)).take i)
    rw [List.length_take, hlen] at this
    omega
  refine ⟨h1, ?_, ?_, ?_, ?_, aggregate_length_le records⟩
  · intro i hi
    have := h1 i (le_of_lt hi)
    omega
  · intro i hi
    exact ⟨h3 i hi, sweep_take_prefix _ _ _ _⟩
  · intro i hi
    have := h3 i (le_of_lt hi)
    omega
  · unfold process_data process_data_top_n
    simp only
    split_ifs
    · simp
    · have := sweep_length_le [] 0 (qsort compare_stats (process_data_aggregate records))
      rw [hlen] at this
      exact this

/-- An instance of `buffer_bounds` on a sample input. -/
theorem buffer_bounds_witness :
    (∀ xs, (qsort_ref compare_stats xs).length = xs.length) ∧
    (process_data qsort_ref spec_example).length ≤
      (process_data_aggregate spec_example).length ∧
    (process_data_aggregate spec_example).length ≤ spec_example.length :=
  ⟨fun xs => (qsort_ref_perm compare_stats xs).length_eq,
    (buffer_bounds qsort_ref (fun xs => (qsort_ref_perm compare_stats xs).length_eq)
      spec_example).2.2.2.2⟩

/-! ## Hour keys of zero-padded timestamps -/

/-- The key that `extract_hour` derives from a timestamp of sixteen characters: all sixteen
characters, with the one at index 13 replaced by a space. -/
theorem extract_hour_of_length (ts : List Nat) (hl : ts.length = 16) (h0 : 0 ∉ ts) :
    extract_hour ts = ts.set 13 32 := by
  unfold extract_hour strncpy
  rw [List.take_of_length_le (by omega), hl]
  simp only [Nat.sub_self, List.replicate_zero, List.append_nil]
  rw [List.set_append_left _ _ (by omega)]
  apply cstr_append_zero
  intro hm
  rcases List.mem_or_eq_of_mem_set hm with h | h
  · exact h0 h
  · exact absurd h (by decide)

theorem strcmp_cons (a b : Nat) (as bs : List Nat) :
    strcmp (a :: as) (b :: bs) = if a < b then -1 else if b < a then 1 else strcmp as bs := by
  simp only [strcmp]

theorem strcmp_cons_same (c : Nat) (a b : List Nat) : strcmp (c :: a) (c :: b) = strcmp a b := by
  rw [strcmp_cons, if_neg (lt_irrefl c), if_neg (lt_irrefl c)]

theorem strcmp_append_same (p a b : List Nat) : strcmp (p ++ a) (p ++ b) = strcmp a b := by
  induction p with
  | nil => rfl
  | cons c p ih => rw [List.cons_append, List.cons_append, strcmp_cons_same, ih]

theorem strcmp_append_lt (p q a b : List Nat) (hl : p.length = q.length)
    (h : strcmp p q < 0) : strcmp (p ++ a) (q ++ b) < 0 := by
  induction p generalizing q with
  | nil =>
    cases q with
    | nil => simp [strcmp] at h
    | cons d q => simp at hl
  | cons c p ih =>
    cases q with
    | nil => simp at hl
    | cons d q =>
      rw [strcmp_cons] at h
      rw [List.cons_append, List.cons_append, strcmp_cons]
      split_ifs at h ⊢ with h1 h2
      · decide
      · exact absurd h (by decide)
      · exact ih q (by simpa using hl) h

theorem four_digits_lt (m n : Nat) (hn : n < 10000) (h : m < n) :
    strcmp (four_digits m) (four_digits n) < 0 := by
  simp only [four_digits, strcmp_cons, strcmp]
  split_ifs <;> omega

theorem two_digits_lt (m n : Nat) (hn : n < 100) (h : m < n) :
    strcmp (two_digits m) (two_digits n) < 0 := by
  simp only [two_digits, strcmp_cons, strcmp]
  split_ifs <;> omega

theorem timestamp_text_facts (t : CalendarTime) :
    (timestamp_text t).length = 16 ∧ 0 ∉ timestamp_text t ∧
    (timestamp_text t).set 13 32 =
      four_digits t.year ++ 45 :: (two_digits t.month ++ 45 :: (two_digits t.day ++
        32 :: (two_digits t.hour ++ 32 :: two_digits t.minute))) := by
  refine ⟨rfl, ?_, rfl⟩
  simp only [timestamp_text, four_digits, two_digits, List.cons_append, List.nil_append,
    List.mem_cons, List.not_mem_nil, or_false, not_or]
  omega

theorem hour_key_order (s t : CalendarTime) (ht : fits_text t) (h : earlier_hour s t) :
    strcmp (extract_hour (timestamp_text s)) (extract_hour (timestamp_text t)) < 0 := by
  obtain ⟨hs1, hs2, hs3⟩ := timestamp_text_facts s
  obtain ⟨ht1, ht2, ht3⟩ := timestamp_text_facts t
  rw [extract_hour_of_length _ hs1 hs2, extract_hour_of_length _ ht1 ht2, hs3, ht3]
  obtain ⟨t1, t2, t3, t4, _⟩ := ht
  rcases h with h | ⟨e1, h⟩
  · exact strcmp_append_lt _ _ _ _ rfl (four_digits_lt _ _ t1 h)
  rw [e1, strcmp_append_same, strcmp_cons_same]
  rcases h with h | ⟨e2, h⟩
  · exact strcmp_append_lt _ _ _ _ rfl (two_digits_lt _ _ t2 h)
  rw [e2, strcmp_append_same, strcmp_cons_same]
  rcases h with h | ⟨e3, h⟩
  · exact strcmp_append_lt _ _ _ _ rfl (two_digits_lt _ _ t3 h)
  rw [e3, strcmp_append_same, strcmp_cons_same]
  exact strcmp_append_lt _ _ _ _ rfl (two_digits_lt _ _ t4 h)

/-- C12. HourKey order is chronological: for two zero-padded timestamps `YYYY-MM-DD HH:MM`
whose fields fit their widths, if the calendar hour of the first is strictly earlier than the
calendar hour of the second, then `extract_hour` of the first is strictly smaller under `strcmp`
(and in the lexicographic order of byte lists) than `extract_hour` of the second. -/
theorem hour_key_chronological (s t : CalendarTime) (hs : fits_text s) (ht : fits_text t)
    (h : earlier_hour s t) :
    strcmp (extract_hour (timestamp_text s)) (extract_hour (timestamp_text t)) < 0 ∧
    extract_hour (timestamp_text s) < extract_hour (timestamp_text t) := by
  have _ := hs
  have hlt := hour_key_order s t ht h
  exact ⟨hlt, (strcmp_neg_iff_lt _ _).1 hlt⟩

/-- An instance of `hour_key_chronological`: hour 23 of one day and hour 00 of the next day. -/
theorem hour_key_chronological_witness :
    fits_text { year := 2024, month := 1, day := 1, hour := 23, minute := 59 } ∧
    fits_text { year := 2024, month := 1, day := 2, hour := 0, minute := 0 } ∧
    earlier_hour { year := 2024, month := 1, day := 1, hour := 23, minute := 59 }
      { year := 2024, month := 1, day := 2, hour := 0, minute := 0 } ∧
    timestamp_text { year := 2024, month := 1, day := 1, hour := 23, minute := 59 } =
      str "2024-01-01 23:59" ∧
    timestamp_text { year := 2024, month := 1, day := 2, hour := 0, minute := 0 } =
      str "2024-01-02 00:00" ∧
    strcmp
      (extract_hour
        (timestamp_text { year := 2024, month := 1, day := 1, hour := 23, minute := 59 }))
      (extract_hour
        (timestamp_text { year := 2024, month := 1, day := 2, hour := 0, minute := 0 })) < 0 :=
  ⟨by decide, by decide, by decide, by decide, by decide,
    (hour_key_chronological { year := 2024, month := 1, day := 1, hour := 23, minute := 59 }
      { year := 2024, month := 1, day := 2, hour := 0, minute := 0 }
      (by decide) (by decide) (by decide)).1⟩

/-! ## The reader -/

theorem read_data_split_eq (tokens parts : List (List Nat)) (hp : parts.length ≤ 4) :
    read_data_split tokens parts = parts ++ tokens.take (4 - parts.length) := by
  induction tokens generalizing parts with
  | nil => simp [read_data_split]
  | cons token rest ih =>
    simp only [read_data_split]
    split_ifs with h
    · rw [ih (parts ++ [token]) (by simp; omega)]
      have e : 4 - parts.length = (4 - (parts ++ [token]).length) + 1 := by
        simp only [List.length_append, List.length_singleton]
        omega
      rw [e, List.take_succ_cons, List.append_assoc]
      rfl
    · have e : 4 - parts.length = 0 := by omega
      rw [e, List.take_zero, List.append_nil]

theorem read_data_line_eq (records : List TrafficRecord) (line : List Nat)
    (hstart : line.head? ≠ some 10 ∧ line.head? ≠ some 35) :
    read_data_line records line =
      match (fields line).take 4 with
      | [date, time, light, number] =>
        match strtol number with
        | none => records
        | some value =>
          records ++
            [{ timestamp := snprintf_timestamp date time,
               traffic_light := copy_field 10 light,
               count := wrap_int value }]
      | _ => records := by
  unfold read_data_line
  rw [if_neg (by simp [hstart.1, hstart.2]), read_data_split_eq _ [] (by simp)]
  rfl

theorem read_data_line_few (records : List TrafficRecord) (line : List Nat)
    (hstart : line.head? ≠ some 10 ∧ line.head? ≠ some 35)
    (hf : (fields line).length < 4) : read_data_line records line = records := by
  rw [read_data_line_eq records line hstart, List.take_of_length_le (by omega)]
  rcases hfl : fields line with _ | ⟨a, _ | ⟨b, _ | ⟨c, _ | ⟨d, l⟩⟩⟩⟩
  · rfl
  · rfl
  · rfl
  · rfl
  · exfalso
    have hlen := congrArg List.length hfl
    simp only [List.length_cons] at hlen
    omega

theorem read_data_line_four (records : List TrafficRecord) (line : List Nat)
    (hstart : line.head? ≠ some 10 ∧ line.head? ≠ some 35)
    (date time light number : List Nat) (more : List (List Nat))
    (hf : fields line = date :: time :: light :: number :: more) :
    (strtol number = none → read_data_line records line = records) ∧
    (∀ value, strtol number = some value →
      read_data_line records line =
        records ++
          [{ timestamp := snprintf_timestamp date time,
             traffic_light := copy_field 10 light,
             count := wrap_int value }]) := by
  rw [read_data_line_eq records line hstart, hf]
  constructor
  · intro h
    simp [h]
  · intro value h
    simp [h]

/-- C13 (counterexample). A line with five fields is not skipped: the reader makes a record
of its first four fields. -/
theorem five_fields_make_a_record :
    (fields (str "2024-01-01 08:05 L1 10 extra" ++ [10])).length = 5 ∧
    read_data_from_file [str "2024-01-01 08:05 L1 10 extra" ++ [10]] =
      [{ timestamp := str "2024-01-01 08:05", traffic_light := str "L1", count := 10 }] := by
  decide

/-- C13 (amended). Parser field count: for every line that does not start with `#` or a line
feed, the reader produces a record from the line only if the line has at least four
space-separated fields; a line with fewer than four fields adds no record, and a line with four
or more fields is read as its first four fields (date, time, light, count), the others being
ignored: it adds no record when `strtol` converts nothing of the fourth field and one record
otherwise. -/
theorem parser_field_count (records : List TrafficRecord) (line : List Nat)
    (hstart : line.head? ≠ some 10 ∧ line.head? ≠ some 35) :
    (read_data_line records line ≠ records → 4 ≤ (fields line).length) ∧
    ((fields line).length < 4 → read_data_line records line = records) ∧
    (∀ date time light number more,
      fields line = date :: time :: light :: number :: more →
      (strtol number = none → read_data_line records line = records) ∧
      (∀ value, strtol number = some value →
        read_data_line records line =
          records ++
            [{ timestamp := snprintf_timestamp date time,
               traffic_light := copy_field 10 light,
               count := wrap_int value }])) := by
  refine ⟨?_, read_data_line_few records line hstart, ?_⟩
  · intro hne
    by_contra hlt
    exact hne (read_data_line_few records line hstart (by omega))
  · intro date time light number more hf
    exact read_data_line_four records line hstart date time light number more hf

/-- An instance of `parser_field_count` on a sample input. -/
theorem parser_field_count_witness :
    ((str "2024-01-01 08:05 L1" ++ [10]).head? ≠ some 10 ∧
      (str "2024-01-01 08:05 L1" ++ [10]).head? ≠ some 35) ∧
    (fields (str "2024-01-01 08:05 L1" ++ [10])).length < 4 ∧
    read_data_line spec_example (str "2024-01-01 08:05 L1" ++ [10]) = spec_example :=
  ⟨by decide, by decide,
    (parser_field_count spec_example (str "2024-01-01 08:05 L1" ++ [10]) (by decide)).2.1
      (by decide)⟩

/-- C14 (counterexample). A fourth field that starts with digits and goes on with other
characters is not skipped: `12abc` is read as the count 12. -/
theorem numeric_prefix_makes_a_record :
    fields (str "2024-01-01 08:05 L1 12abc" ++ [10]) =
      [str "2024-01-01", str "08:05", str "L1", str "12abc"] ∧
    read_data_from_file [str "2024-01-01 08:05 L1 12abc" ++ [10]] =
      [{ timestamp := str "2024-01-01 08:05", traffic_light := str "L1", count := 12 }] := by
  decide

/-- C14 (amended). Parser count validity: for every line with four or more fields whose
fourth field does not start with a decimal numeral (after white space and an optional sign no
digit follows, as in `abc`), the reader skips the line: no record is added, the count stays, and
the following lines are processed as if the line were absent.  A fourth field that starts with a
decimal numeral (as `12abc`) is accepted: `strtol` converts the numeral and the line adds one
record. -/
theorem parser_count_validity (records : List TrafficRecord) (line : List Nat)
    (rest : List (List Nat)) (date time light number : List Nat) (more : List (List Nat))
    (hstart : line.head? ≠ some 10 ∧ line.head? ≠ some 35)
    (hroom : records.length < MAX_TRAFFIC_LIGHTS)
    (hf : fields line = date :: time :: light :: number :: more) :
    (strtol_numeral number = [] →
      read_data_line records line = records ∧
      read_data_loop records (line :: rest) = read_data_loop records rest) ∧
    (strtol_numeral number ≠ [] →
      ∃ value, strtol number = some value ∧
        read_data_line records line =
          records ++
            [{ timestamp := snprintf_timestamp date time,
               traffic_light := copy_field 10 light,
               count := wrap_int value }]) := by
  obtain ⟨h1, h2⟩ := read_data_line_four records line hstart date time light number more hf
  constructor
  · intro hnum
    have hnone : strtol number = none := by
      unfold strtol
      rw [if_pos hnum]
    have hl := h1 hnone
    refine ⟨hl, ?_⟩
    simp only [read_data_loop]
    rw [if_pos hroom, hl]
  · intro hnum
    cases hv : strtol number with
    | none =>
      unfold strtol at hv
      rw [if_neg hnum] at hv
      split_ifs at hv
    | some value => exact ⟨value, rfl, h2 value hv⟩

/-- An instance of `parser_count_validity` on a sample input. -/
theorem parser_count_validity_witness :
    ((str "2024-01-01 08:05 L1 abc" ++ [10]).head? ≠ some 10 ∧
      (str "2024-01-01 08:05 L1 abc" ++ [10]).head? ≠ some 35) ∧
    spec_example.length < MAX_TRAFFIC_LIGHTS ∧
    fields (str "2024-01-01 08:05 L1 abc" ++ [10]) =
      [str "2024-01-01", str "08:05", str "L1", str "abc"] ∧
    strtol_numeral (str "abc") = [] ∧
    read_data_line spec_example (str "2024-01-01 08:05 L1 abc" ++ [10]) = spec_example ∧
    read_data_loop spec_example
        [str "2024-01-01 08:05 L1 abc" ++ [10], str "2024-01-01 09:30 L2 3" ++ [10]] =
      read_data_loop spec_example [str "2024-01-01 09:30 L2 3" ++ [10]] :=
  ⟨by decide, by decide, by decide, by decide,
    ((parser_count_validity spec_example (str "2024-01-01 08:05 L1 abc" ++ [10])
      [str "2024-01-01 09:30 L2 3" ++ [10]] (str "2024-01-01") (str "08:05") (str "L1")
      (str "abc") [] (by decide) (by decide) (by decide)).1 (by decide)).1,
    ((parser_count_validity spec_example (str "2024-01-01 08:05 L1 abc" ++ [10])
      [str "2024-01-01 09:30 L2 3" ++ [10]] (str "2024-01-01") (str "08:05") (str "L1")
      (str "abc") [] (by decide) (by decide) (by decide)).1 (by decide)).2⟩

/-! ## Empty inputs -/

/-- C15 (the code at the failing input). With no records `process_data` sets `*num_results` to
0 whatever its two allocations return, a null pointer included, and the array it returns, if
any, is empty; the global reduction of an empty `all_results` is empty, and with one worker the
program ends with the empty report.  With two or more workers and the GNU C library it does
not: every worker sends an empty array, the second `realloc(all_results, 0)` of the receive
loop returns a null pointer, and the program ends in `MPI_Abort` without a report.  With a C
library whose `realloc(p, 0)` returns a non-null pointer the same run ends with the empty
report. -/
theorem zero_record_partition_aborts
    (qsort : (HourlyStats → HourlyStats → Int) → List HourlyStats → List HourlyStats)
    (temp_stats_alloc results_alloc : Bool) (W : Nat) :
    (process_data_mem qsort temp_stats_alloc results_alloc []).2 = 0 ∧
    ((process_data_mem qsort temp_stats_alloc results_alloc []).1 = none ∨
      (process_data_mem qsort temp_stats_alloc results_alloc []).1 = some []) ∧
    process_data qsort [] = [] ∧
    main_reduce qsort [] = [] ∧
    main glibc qsort 2 [] = some [] ∧
    main_workers glibc qsort (main_slices [] 3) = some [[], []] ∧
    main_collect glibc none [[], []] = none ∧
    main glibc qsort ((W : Int) + 3) [] = none ∧
    main { malloc_zero := true, realloc_zero := true } qsort 3 [] = some [] := by
  refine ⟨?_, ?_, rfl, rfl, rfl, rfl, rfl, main_glibc_empty qsort W, rfl⟩
  · cases temp_stats_alloc <;> cases results_alloc <;> rfl
  · cases temp_stats_alloc <;> cases results_alloc <;>
      simp [process_data_mem, process_data_aggregate]

end TrafficControl
